import Mathlib

/-!
Formal model of the LZ8S codec (encoder src/lz8s.c, decoder src/lz8dec.c).

The model is a shallow embedding of the two C programs:

* machine integers are modelled as Nat (unsigned values: lengths, offsets,
  positions, bytes) and Int (the cost accounting, which C performs with int;
  no C computation here overflows int, so Int is exact);
* byte stores through uint8_t (the encoder buffer) are modelled by an
  explicit reduction mod 256 at the spot where the C truncates;
* the output sink (struct bf plus stdio in the encoder, putchar in the
  decoder) is modelled as an unbounded byte list;
* the decoder ring buffer (char buf[65536], indexed with pos & mask) is
  modelled as a function Nat → Nat updated pointwise, indexed with
  pos % (mask+1), which equals pos & mask because mask+1 is a power of two.
  C leaves the buffer uninitialised; the model uses 0 for never-written
  slots (no run of the decoder on an encoder output ever reads such a slot);
* C loops are modelled as structural recursion, with fuel where the C
  loop bound is not structural (the fuel supplied is always provably
  sufficient, see the fuel lemmas).
-/

namespace LZ8S

/-! ## Configuration

The tuning variables of the reference are process-wide globals
(bits_moff, max_mlen, max_llen, zero_offset, offset_rel, exor_offset);
the model packages them in a record passed to every function.
offset_rel is an int that is negative when absent; the model uses Option.
exor_offset exists only in the decoder (-x); the reference encoder never
complements offsets.
-/

structure Cfg where
  bitsMoff : Nat
  maxMlen : Nat
  maxLlen : Nat
  zeroOffset : Bool
  offsetRel : Option Nat
  exorOffset : Bool
deriving DecidableEq, Repr

/-- max_off: `#define max_off (1<<bits_moff)` -/
def Cfg.maxOff (c : Cfg) : Nat := 2 ^ c.bitsMoff

/-- The offset_rel CLI validation of both tools: relative addressing needs
8 or 16 offset bits, and the address must fit the offset width. -/
def Cfg.relOkB (c : Cfg) : Bool :=
  match c.offsetRel with
  | none => true
  | some a => ((c.bitsMoff == 8 && a < 256) || (c.bitsMoff == 16 && a < 65536))

/-- A configuration accepted by the CLI validation of both tools, with the
encoder-compatible requirement exor_offset = false (the reference encoder
has no offset-complement mode). -/
def Cfg.Valid (c : Cfg) : Prop :=
  c.bitsMoff ≤ 16 ∧
  1 ≤ c.maxMlen ∧ c.maxMlen ≤ 32895 ∧
  1 ≤ c.maxLlen ∧ c.maxLlen ≤ 32895 ∧
  c.exorOffset = false ∧
  c.relOkB = true

instance (c : Cfg) : Decidable c.Valid := by
  unfold Cfg.Valid; infer_instance

/-- The default configuration of both tools
(bits_moff = 8, max_mlen = max_llen = 255, no flags). -/
def dfltCfg : Cfg :=
  { bitsMoff := 8, maxMlen := 255, maxLlen := 255,
    zeroOffset := false, offsetRel := none, exorOffset := false }

/-! ## Cost model (lz8s.c) -/

/-- INFINITE_COST = INT_MAX/256. -/
def INFC : Int := 8388607

/-- mlen_cost (lz8s.c): cost in bits of writing a match length. -/
def mlen_cost (c : Cfg) (l : Nat) : Int :=
  if c.maxMlen < l then INFC
  else if 255 < c.maxMlen ∧ 127 < l then 16
  else 8

/-- moff_cost (lz8s.c): cost in bits of writing a match offset. -/
def moff_cost (c : Cfg) (o : Nat) : Int :=
  if c.maxOff < o ∨ o < 1 then INFC
  else if c.bitsMoff = 0 then 0
  else if c.bitsMoff ≤ 8 then 8
  else 16

/-- zero_match_cost, computed in lzop_init:
`mlen_cost(0) + (zero_offset ? moff_cost(1) : 0)`. -/
def zmc (c : Cfg) : Int :=
  mlen_cost c 0 + (if c.zeroOffset then moff_cost c 1 else 0)

/-- llen_cost (lz8s.c) with explicit fuel for the while loop that splits
lengths beyond max_llen.  Each loop iteration removes max_llen ≥ 1, so
fuel = l always suffices (see llenCostF_fuel). -/
def llenCostF (c : Cfg) : Nat → Nat → Int
  | _, 0 => 0
  | 0, _ + 1 => 0
  | f + 1, l + 1 =>
    if c.maxLlen < l + 1 then
      (8 + zmc c) + llenCostF c f (l + 1 - c.maxLlen)
    else if 255 < c.maxLlen ∧ 127 < l + 1 then 16
    else 8

/-- llen_cost (lz8s.c): cost in bits of writing a literal run length,
splitting runs beyond max_llen with zero-length matches. -/
def llen_cost (c : Cfg) (l : Nat) : Int := llenCostF c l l

/-! ## Match finder (lz8s.c: get_mlen, match) -/

/-- get_mlen (lz8s.c): longest common prefix of data+a and data+b,
capped at k. -/
def lcp (data : List Nat) : Nat → Nat → Nat → Nat
  | _, _, 0 => 0
  | a, b, k + 1 =>
    if data.getD a 0 = data.getD b 0 then lcp data (a + 1) (b + 1) k + 1
    else 0

/-- The scan loop of match (lz8s.c), over the explicit list of window
positions i; state is (mlen, mpos), with the early return once the cap
mxlen is reached. -/
def matchGo (data : List Nat) (pos mx : Nat) : List Nat → Nat × Nat → Nat × Nat
  | [], st => st
  | i :: is, (mlen, mpos) =>
    let ml := lcp data pos i mx
    if mlen < ml then
      if mx ≤ ml then (ml, pos - i) else matchGo data pos mx is (ml, pos - i)
    else matchGo data pos mx is (mlen, mpos)

/-- match (lz8s.c): maximal match length and offset at pos.  The caller
(lzop_backfill) initialises the by-reference mpos to 0. -/
def matchF (c : Cfg) (data : List Nat) (pos : Nat) : Nat × Nat :=
  let mx := min c.maxMlen (data.length - pos)
  let lo := pos - c.maxOff
  matchGo data pos mx (List.range' lo (pos - lo)) (0, 0)

/-! ## Optimal-parse table (lz8s.c: struct lzop_st, lzop_backfill) -/

/-- One cell of the parse table (struct lzop_st). -/
structure St where
  lbits : Int
  llen : Nat
  mbits : Int
  mlen : Nat
  mpos : Nat
deriving DecidableEq, Repr

/-- The cell at position size (the sentinel written first by
lzop_backfill): llen=0, lbits=0, mlen=0, mpos=0, mbits=INFINITE_COST. -/
def sentSt : St := ⟨0, 0, INFC, 0, 0⟩

/-- First literal loop of lzop_backfill (`for i in 1..5`): join i literal
bytes onto the literal run starting at pos+i.  State is (ml, lbits, llen);
prev lists the already-computed cells, prev.getD (i-1) being the cell at
pos + i. -/
def litLoop1 (c : Cfg) (prev : List St) : List Nat → Nat × Int × Nat → Nat × Int × Nat
  | [], st => st
  | i :: is, (ml, lb, ll) =>
    let nxt := prev.getD (i - 1) sentSt
    let ml2 := if ml < nxt.llen + i then nxt.llen + i else ml
    let cand := nxt.lbits + 8 * (i : Int) - llen_cost c nxt.llen + llen_cost c (nxt.llen + i)
    litLoop1 c prev is (if cand < lb then (ml2, cand, nxt.llen + i) else (ml2, lb, ll))

/-- Second literal loop of lzop_backfill (`for i in 1..ml-1`): i literal
bytes followed by the match starting at pos+i.  State is (lbits, llen). -/
def litLoop2 (c : Cfg) (prev : List St) : List Nat → Int × Nat → Int × Nat
  | [], st => st
  | i :: is, (lb, ll) =>
    let nxt := prev.getD (i - 1) sentSt
    let cand := nxt.mbits + 8 * (i : Int) + llen_cost c i
    litLoop2 c prev is (if cand < lb then (cand, i) else (lb, ll))

/-- Match loop of lzop_backfill (`for l in min_mlen..ml`, min_mlen = 1).
State is (mbits, mlen); in the C the running bestm always equals the
stored cur->mbits, so one field carries both. -/
def matLoop (c : Cfg) (prev : List St) (mp : Nat) : List Nat → Int × Nat → Int × Nat
  | [], st => st
  | l :: ls, (mb, mlen) =>
    let nxt := prev.getD (l - 1) sentSt
    let mbc := nxt.mbits + llen_cost c 1 + moff_cost c mp + mlen_cost c l
    let lbc := nxt.lbits + moff_cost c mp + mlen_cost c l
    let st1 := if lbc ≤ mb then (lbc, l) else (mb, mlen)
    let st2 := if mbc ≤ st1.1 then (mbc, l) else st1
    matLoop c prev mp ls st2

/-- One iteration of the backward loop of lzop_backfill, building the cell
at distance dd from the end (position data.length - dd) from the list of
cells already built (head = the cell one position later). -/
def mkCell (c : Cfg) (data : List Nat) (dd : Nat) (prev : List St) : St :=
  let pos := data.length - dd
  let s1 := litLoop1 c prev (List.range' 1 (min 5 dd)) (0, INFC, 0)
  let s2 := litLoop2 c prev (List.range' 1 (s1.1 - 1)) (s1.2.1, s1.2.2)
  let m := matchF c data pos
  let s3 := matLoop c prev m.2 (List.range' 1 m.1) (INFC, 0)
  ⟨s2.1, s2.2, s3.1, s3.2, m.2⟩

/-- The table of lzop_backfill, as a list whose head is the cell at
distance d from the end of the data. -/
def tblAux (c : Cfg) (data : List Nat) : Nat → List St
  | 0 => [sentSt]
  | d + 1 => mkCell c data (d + 1) (tblAux c data d) :: tblAux c data d

/-- The full parse table; index pos gives the cell at position pos
(index data.length is the sentinel). -/
def cells (c : Cfg) (data : List Nat) : List St := tblAux c data data.length

/-- The cell at distance dd from the end of the data (the head of the
table built up to dd); a proof-side view of the same table. -/
def cellAt (c : Cfg) (data : List Nat) (dd : Nat) : St :=
  (tblAux c data dd).headD sentSt

/-! ## Encoder emission (lz8s.c: code_match, lzop_encode, main loop) -/

/-- One output block.  `lit len bytes` records the literal length written
in the header together with the literal bytes emitted for the block;
`mat len off` a match header and its already-converted offset field. -/
inductive Blk where
  | lit : Nat → List Nat → Blk
  | mat : Nat → Nat → Blk
deriving DecidableEq, Repr

def Blk.isLit : Blk → Bool
  | .lit _ _ => true
  | .mat _ _ => false

/-- The offset conversion of lzop_encode:
`(mpos - 1) & 0xFFFF` when offset_rel is absent, else
`(pos + offset_rel - mpos) & 0xFFFF` (C int arithmetic, hence via Int). -/
def encOff (c : Cfg) (pos mpos : Nat) : Nat :=
  match c.offsetRel with
  | none => (((mpos : Int) - 1) % 65536).toNat
  | some a => (((pos : Int) + (a : Int) - (mpos : Int)) % 65536).toNat

/-- The emission walk: the compress loop of main plus lzop_encode, one
recursion step per emitted block group.  lzop_encode at an emission
position either emits a literal of len = min(llen, max_llen) (preceded by
a zero-length match when already inside a literal) and then returns
pos+len-1 so that the literal data bytes are emitted while skipping, or
emits a match (preceded by a zero-length literal header when the previous
block was a match).  The net position advance is max(len,1) in both cases.
Fuel: each step advances pos by at least 1, so fuel = data.length - pos
suffices (walk stops when pos ≥ data.length). -/
def lzWalk (c : Cfg) (data : List Nat) (cs : List St) : Nat → Nat → Bool → List Blk
  | 0, _, _ => []
  | f + 1, pos, inLit =>
    if pos < data.length then
      let cur := cs.getD pos sentSt
      if cur.lbits + (if inLit then zmc c else 0) ≤ cur.mbits then
        let len := min cur.llen c.maxLlen
        (if inLit then [Blk.mat 0 0] else []) ++
          Blk.lit len ((data.drop pos).take (max len 1)) ::
            lzWalk c data cs f (pos + max len 1) true
      else
        (if inLit then [] else [Blk.lit 0 []]) ++
          Blk.mat cur.mlen (encOff c pos cur.mpos) ::
            lzWalk c data cs f (pos + max cur.mlen 1) false
    else []

/-- The length-field bytes shared by code_match and the literal header of
lzop_encode: two bytes `(0x80|len)&0xFF, (len>>7)-1` when the configured
maximum exceeds 255 and len > 127, else the single byte `len&0xFF`.
`(0x80|len)&0xFF = len%128 + 128` and add_byte truncates to a byte. -/
def lenHdr (maxv len : Nat) : List Nat :=
  if 127 < len ∧ 255 < maxv then [len % 128 + 128, (len / 128 - 1) % 256]
  else [len % 256]

/-- The byte serialisation of one block: the literal header plus literal
data bytes of lzop_encode, or code_match (lz8s.c): length field, then the
offset (low byte, and high byte when bits_moff > 8) iff len > 0 or
zero_offset.  add_byte stores into uint8_t, hence the mod 256. -/
def serBlk (c : Cfg) : Blk → List Nat
  | .lit len bs => lenHdr c.maxLlen len ++ bs.map (· % 256)
  | .mat len off =>
    lenHdr c.maxMlen len ++
      (if len ≠ 0 ∨ c.zeroOffset then
        (if c.bitsMoff ≠ 0 then [off % 256] else []) ++
          (if 8 < c.bitsMoff then [(off / 256) % 256] else [])
      else [])

/-- The encoder byte stream: lzop_init + lzop_backfill + the compress
loop, serialised. -/
def lzEncode (c : Cfg) (data : List Nat) : List Nat :=
  ((lzWalk c data (cells c data) data.length 0 false).map (serBlk c)).flatten

/-- The encoder main program on a full input stream: main allocates a
128 KiB buffer and reads at most 128*1024 bytes (`fread(data, 1,
128*1024, input_file)`); there is no size check, so longer input is
silently truncated, and encoding then proceeds on what was read. -/
def lzEncodeMain (c : Cfg) (input : List Nat) : List Nat :=
  lzEncode c (input.take 131072)

/-! ## Decoder (lz8dec.c) -/

/-- The two error reports of decode (lz8dec.c); both messages begin
"ERROR, short file ...". -/
inductive DErr where
  | shortLit : DErr
  | shortOff : DErr
deriving DecidableEq, Repr

/-- get_len (lz8dec.c).  Note the C bug kept faithfully: after reading the
second byte c2 the code tests `c == EOF` (not c2), which is statically
false there, so end of file in place of the second byte is NOT reported;
c2 = EOF = -1 flows on and the function returns `c + (-1 << 7) = c - 128`
with the input exhausted. -/
def getLen (maxv : Nat) : List Nat → Option (Nat × List Nat)
  | [] => none
  | ch :: rest =>
    if maxv < 256 ∨ ch < 128 then some (ch, rest)
    else
      match rest with
      | [] => some (ch - 128, [])
      | c2 :: r2 => some (ch + c2 * 128, r2)

/-- The decoder window mask: `bits_moff > 8 ? 0xFFFF : 0xFF`. -/
def dmask (c : Cfg) : Nat := if 8 < c.bitsMoff then 65535 else 255

/-- The literal copy loop of decode: read n bytes from the input, store
each in the ring and emit it.  Returns the emitted bytes and, on
success, the new position, ring and remaining input; none signals EOF
("ERROR, short file reading literal."). -/
def copyLits (mask : Nat) : Nat → Nat → (Nat → Nat) → List Nat →
    List Nat × Option (Nat × (Nat → Nat) × List Nat)
  | 0, pos, ring, inp => ([], some (pos, ring, inp))
  | n + 1, pos, ring, inp =>
    match inp with
    | [] => ([], none)
    | x :: r =>
      let res := copyLits mask n (pos + 1) (fun k => if k = pos % (mask + 1) then x else ring k) r
      (x :: res.1, res.2)

/-- The match copy loop of decode: n times, read the ring at src, store at
pos, emit, increment both. -/
def copyMatch (mask : Nat) : Nat → Nat → Nat → (Nat → Nat) →
    List Nat × Nat × (Nat → Nat)
  | 0, pos, _, ring => ([], pos, ring)
  | n + 1, pos, src, ring =>
    let x := ring (src % (mask + 1))
    let res := copyMatch mask n (pos + 1) (src + 1)
      (fun k => if k = pos % (mask + 1) then x else ring k)
    (x :: res.1, res.2)

/-- The offset-field read of decode: nothing when bits_moff = 0, else one
byte, plus a high byte when bits_moff > 8; none signals EOF
("ERROR, short file reading match offset."). -/
def readOff (c : Cfg) (inp : List Nat) : Option (Nat × List Nat) :=
  if c.bitsMoff = 0 then some (0, inp)
  else
    match inp with
    | [] => none
    | o1 :: r1 =>
      if 8 < c.bitsMoff then
        match r1 with
        | [] => none
        | o2 :: r2 => some (o1 + o2 * 256, r2)
      else some (o1, r1)

/-- The source-index computation of decode from the (possibly
complemented) offset field: `pos - off + mask` when offset_rel is absent,
else `off + mask + 1 - offset_rel`.  (pos is unsigned in C; with off and
offset_rel at most mask the subtractions cannot go negative, matching Nat
subtraction here.) -/
def srcOf (c : Cfg) (pos off : Nat) : Nat :=
  match c.offsetRel with
  | none => pos + dmask c - off
  | some a => off + dmask c + 1 - a

/-- The decode loop of lz8dec.c.  One C while-iteration reads a literal
block then a match block; phase=false is the literal half, phase=true the
match half.  Clean EOF at either length field terminates with the output
produced.  Fuel: every recursive call has consumed at least the length
byte, so fuel = input length + 1 suffices (see decLoop_fuel). -/
def decLoop (c : Cfg) : Nat → Bool → Nat → (Nat → Nat) → List Nat →
    List Nat × Option DErr
  | 0, _, _, _, _ => ([], none)
  | f + 1, false, pos, ring, inp =>
    match getLen c.maxLlen inp with
    | none => ([], none)
    | some (n, rest) =>
      match copyLits (dmask c) n pos ring rest with
      | (o, none) => (o, some DErr.shortLit)
      | (o, some (pos2, ring2, rest2)) =>
        let res := decLoop c f true pos2 ring2 rest2
        (o ++ res.1, res.2)
  | f + 1, true, pos, ring, inp =>
    match getLen c.maxMlen inp with
    | none => ([], none)
    | some (n, rest) =>
      if c.zeroOffset ∨ n ≠ 0 then
        match readOff c rest with
        | none => ([], some DErr.shortOff)
        | some (off0, rest2) =>
          let off1 := if c.exorOffset then Nat.xor (dmask c) off0 else off0
          let cm := copyMatch (dmask c) n pos (srcOf c pos off1) ring
          let res := decLoop c f false cm.2.1 cm.2.2 rest2
          (cm.1 ++ res.1, res.2)
      else decLoop c f false pos ring rest

/-- decode (lz8dec.c) run on a whole input stream: output bytes produced
(pos in the C counts them) and the error report, if any. -/
def decodeRun (c : Cfg) (inp : List Nat) : List Nat × Option DErr :=
  decLoop c (inp.length + 1) false 0 (fun _ => 0) inp

/-! ## Spec-side match finder

Modelled from the spec wording of the match finder, for comparison with
the implementation: "Keep the largest match length; on ties, the *later*
i wins (smaller offset)."  Same window, same cap, but updates on ties as
well, so the last window position achieving the maximum is kept. -/

def matchSpecGo (data : List Nat) (pos mx : Nat) : List Nat → Nat × Nat → Nat × Nat
  | [], st => st
  | i :: is, (mlen, mpos) =>
    let ml := lcp data pos i mx
    matchSpecGo data pos mx is
      (if mlen ≤ ml ∧ 1 ≤ ml then (ml, pos - i) else (mlen, mpos))

/-- The match finder as the spec sentence describes it (later i wins
ties). -/
def matchSpec (c : Cfg) (data : List Nat) (pos : Nat) : Nat × Nat :=
  let mx := min c.maxMlen (data.length - pos)
  let lo := pos - c.maxOff
  matchSpecGo data pos mx (List.range' lo (pos - lo)) (0, 0)

/-! ## Proof-side predicates -/

/-- The invariants of one parse-table cell at position pos: cost fields
are non-negative, the literal cost is bounded (48 bits per remaining
position, which keeps it below INFINITE_COST for inputs within the
128 KiB buffer), the literal length is positive and stays inside the
data, and a finite match cost certifies a genuine match: positive
length within bounds, offset inside the window, and the matched bytes
really repeat earlier data. -/
def CellInv (c : Cfg) (data : List Nat) (pos : Nat) (st : St) : Prop :=
  0 ≤ st.lbits ∧
  st.lbits ≤ 48 * ((data.length - pos : Nat) : Int) ∧
  (pos < data.length → 1 ≤ st.llen) ∧
  pos + st.llen ≤ data.length ∧
  0 ≤ st.mbits ∧
  (st.mbits < INFC →
    1 ≤ st.mlen ∧ pos + st.mlen ≤ data.length ∧ st.mlen ≤ c.maxMlen ∧
    1 ≤ st.mpos ∧ st.mpos ≤ pos ∧ st.mpos ≤ c.maxOff ∧
    ∀ j, j < st.mlen → data.getD (pos + j) 0 = data.getD (pos - st.mpos + j) 0)

/-- Ring-buffer coherence: at output position pos the decoder ring (of
size w = mask+1) holds the last min(pos, w) produced bytes, which in a
faithful replay of an encoder stream are the corresponding data bytes. -/
def Coh (data : List Nat) (w pos : Nat) (ring : Nat → Nat) : Prop :=
  ∀ j, j < pos → pos ≤ j + w → ring (j % w) = data.getD j 0

/-- The default configuration with bits_moff = 0 (RLE mode, `-o 0`). -/
def rleCfg : Cfg := { dfltCfg with bitsMoff := 0 }

/-- The default configuration with max_llen = 300 (`-l 300`), a two-byte
literal-length configuration. -/
def l300Cfg : Cfg := { dfltCfg with maxLlen := 300 }

/-! ## Match finder lemmas -/

theorem lcp_le_cap (data : List Nat) (a b k : Nat) : lcp data a b k ≤ k := by
  induction k generalizing a b with
  | zero => simp [lcp]
  | succ k ih =>
    simp only [lcp]
    split
    · exact Nat.succ_le_succ (ih _ _)
    · exact Nat.zero_le _

theorem lcp_eq_of_lt (data : List Nat) (a b k : Nat) :
    ∀ j, j < lcp data a b k → data.getD (a + j) 0 = data.getD (b + j) 0 := by
  induction k generalizing a b with
  | zero => simp [lcp]
  | succ k ih =>
    intro j hj
    simp only [lcp] at hj
    by_cases h : data.getD a 0 = data.getD b 0
    · rw [if_pos h] at hj
      cases j with
      | zero => simpa using h
      | succ j =>
        have := ih (a + 1) (b + 1) j (by omega)
        simpa [Nat.add_comm, Nat.add_assoc, Nat.add_left_comm] using this
    · rw [if_neg h] at hj; omega

/-- Full behaviour of the scan loop of match() on a contiguous index
range: the result dominates every scanned (or cap-skipped) position, and
either the state is unchanged or the winner is the earliest strictly
improving position. -/
theorem matchGo_spec (data : List Nat) (pos mx : Nat) :
    ∀ n a m p,
      m ≤ (matchGo data pos mx (List.range' a n) (m, p)).1 ∧
      (matchGo data pos mx (List.range' a n) (m, p)).1 ≤ max m mx ∧
      (∀ i, a ≤ i → i < a + n →
        lcp data pos i mx ≤ (matchGo data pos mx (List.range' a n) (m, p)).1) ∧
      (matchGo data pos mx (List.range' a n) (m, p) = (m, p) ∨
        ∃ i, a ≤ i ∧ i < a + n ∧
          lcp data pos i mx = (matchGo data pos mx (List.range' a n) (m, p)).1 ∧
          (matchGo data pos mx (List.range' a n) (m, p)).2 = pos - i ∧
          m < (matchGo data pos mx (List.range' a n) (m, p)).1 ∧
          ∀ j, a ≤ j → j < i →
            lcp data pos j mx < (matchGo data pos mx (List.range' a n) (m, p)).1) := by
  intro n
  induction n with
  | zero =>
    intro a m p
    simp [matchGo]
    omega
  | succ n ih =>
    intro a m p
    rw [List.range'_succ]
    simp only [matchGo]
    by_cases h1 : m < lcp data pos a mx
    · rw [if_pos h1]
      by_cases h2 : mx ≤ lcp data pos a mx
      · rw [if_pos h2]
        have hle := lcp_le_cap data pos a mx
        refine ⟨by omega, by simp; omega, ?_, ?_⟩
        · intro i _ _
          have := lcp_le_cap data pos i mx
          omega
        · exact Or.inr ⟨a, le_refl a, by omega, rfl, rfl, h1, fun j h h' => by omega⟩
      · rw [if_neg h2]
        obtain ⟨g1, g2, g3, g4⟩ := ih (a + 1) (lcp data pos a mx) (pos - a)
        refine ⟨by omega, by simp at g2 ⊢; omega, ?_, ?_⟩
        · intro i hi hi'
          rcases Nat.eq_or_lt_of_le hi with rfl | hlt
          · omega
          · exact g3 i hlt (by omega)
        · rcases g4 with heq | ⟨i, hi1, hi2, hi3, hi4, hi5, hi6⟩
          · refine Or.inr ⟨a, le_refl a, by omega, ?_, ?_, ?_, fun j h h' => by omega⟩
            · rw [heq]
            · rw [heq]
            · rw [heq]; exact h1
          · refine Or.inr ⟨i, by omega, by omega, hi3, hi4, by omega, ?_⟩
            intro j hj hj'
            rcases Nat.eq_or_lt_of_le hj with rfl | hlt
            · omega
            · exact hi6 j hlt hj'
    · rw [if_neg h1]
      obtain ⟨g1, g2, g3, g4⟩ := ih (a + 1) m p
      refine ⟨g1, g2, ?_, ?_⟩
      · intro i hi hi'
        rcases Nat.eq_or_lt_of_le hi with rfl | hlt
        · omega
        · exact g3 i hlt (by omega)
      · rcases g4 with heq | ⟨i, hi1, hi2, hi3, hi4, hi5, hi6⟩
        · exact Or.inl heq
        · refine Or.inr ⟨i, by omega, by omega, hi3, hi4, hi5, ?_⟩
          intro j hj hj'
          rcases Nat.eq_or_lt_of_le hj with rfl | hlt
          · omega
          · exact hi6 j hlt hj'

/-- The full input-output behaviour of match() (same content as the
amended claim C2, shared by the parse-table invariants). -/
theorem matchF_spec (c : Cfg) (data : List Nat) (pos : Nat) :
    (∀ i, pos - c.maxOff ≤ i → i < pos →
      lcp data pos i (min c.maxMlen (data.length - pos)) ≤ (matchF c data pos).1) ∧
    (matchF c data pos).1 ≤ min c.maxMlen (data.length - pos) ∧
    ((matchF c data pos).1 = 0 → matchF c data pos = (0, 0)) ∧
    ((matchF c data pos).1 ≠ 0 →
      ∃ i, pos - c.maxOff ≤ i ∧ i < pos ∧
        lcp data pos i (min c.maxMlen (data.length - pos)) = (matchF c data pos).1 ∧
        (matchF c data pos).2 = pos - i ∧
        ∀ j, pos - c.maxOff ≤ j → j < i →
          lcp data pos j (min c.maxMlen (data.length - pos)) < (matchF c data pos).1) := by
  have hlo : pos - c.maxOff ≤ pos := Nat.sub_le _ _
  have hrange : pos - c.maxOff + (pos - (pos - c.maxOff)) = pos := by omega
  obtain ⟨g1, g2, g3, g4⟩ :=
    matchGo_spec data pos (min c.maxMlen (data.length - pos))
      (pos - (pos - c.maxOff)) (pos - c.maxOff) 0 0
  rw [hrange] at g3 g4
  refine ⟨fun i hi hi' => g3 i hi hi', by simpa using g2, ?_, ?_⟩
  · intro h0
    rcases g4 with heq | ⟨i, _, _, _, _, hgt, _⟩
    · exact heq
    · rw [matchF] at h0; omega
  · intro h0
    rcases g4 with heq | ⟨i, hi1, hi2, hi3, hi4, _, hi6⟩
    · rw [matchF] at h0
      rw [heq] at h0
      simp at h0
    · exact ⟨i, hi1, hi2, hi3, hi4, hi6⟩

/-- Claim C2 (counterexample): at data = [1,2,9,1,2,8,1,2,7] and p = 6,
window positions 0 and 3 both achieve the maximal match length 2, and the
code returns the offset of the earlier one (offset 6), not the later one
(offset 3) demanded by the claim; the claim-side definition and the code
disagree here. -/
theorem c2_match_cex :
    matchF dfltCfg [1, 2, 9, 1, 2, 8, 1, 2, 7] 6 = (2, 6) ∧
    matchSpec dfltCfg [1, 2, 9, 1, 2, 8, 1, 2, 7] 6 = (2, 3) ∧
    matchF dfltCfg [1, 2, 9, 1, 2, 8, 1, 2, 7] 6 ≠
      matchSpec dfltCfg [1, 2, 9, 1, 2, 8, 1, 2, 7] 6 :=
  ⟨by decide, by decide, by decide⟩

/-- Claim C2 (amended): the match finder returns the largest match length
found in the window (scanning i from max(p - max_off, 0) up to p-1, each
common prefix capped by min(max_mlen, N - p)); when several window
positions achieve that largest length, the EARLIER i (larger offset
p - i) is the winner whose offset p - i is returned (the scan only
replaces the running best on a strictly longer match); if no match of
length at least 1 exists, (0, 0) is returned. -/
theorem c2_match_amended (c : Cfg) (data : List Nat) (pos : Nat) :
    (∀ i, pos - c.maxOff ≤ i → i < pos →
      lcp data pos i (min c.maxMlen (data.length - pos)) ≤ (matchF c data pos).1) ∧
    (matchF c data pos).1 ≤ min c.maxMlen (data.length - pos) ∧
    ((matchF c data pos).1 = 0 → matchF c data pos = (0, 0)) ∧
    ((matchF c data pos).1 ≠ 0 →
      ∃ i, pos - c.maxOff ≤ i ∧ i < pos ∧
        lcp data pos i (min c.maxMlen (data.length - pos)) = (matchF c data pos).1 ∧
        (matchF c data pos).2 = pos - i ∧
        ∀ j, pos - c.maxOff ≤ j → j < i →
          lcp data pos j (min c.maxMlen (data.length - pos)) < (matchF c data pos).1) :=
  matchF_spec c data pos

/-- Witness for c2_match_amended at the counterexample data, position 6,
window position i = 3: the dominance conjunct applies there. -/
theorem c2_match_amended_witness :
    (6 - dfltCfg.maxOff ≤ 3 ∧ 3 < 6) ∧
    lcp [1, 2, 9, 1, 2, 8, 1, 2, 7] 6 3
        (min dfltCfg.maxMlen (([1, 2, 9, 1, 2, 8, 1, 2, 7] : List Nat).length - 6)) ≤
      (matchF dfltCfg [1, 2, 9, 1, 2, 8, 1, 2, 7] 6).1 :=
  ⟨⟨by decide, by decide⟩,
   (c2_match_amended dfltCfg [1, 2, 9, 1, 2, 8, 1, 2, 7] 6).1 3
     (by decide) (by decide)⟩

/-- Claim C3 (counterexample): with the default configuration, encoding
the one-byte input "A" does not produce the three bytes 01 41 00. -/
theorem c3_encode_a_cex : lzEncode dfltCfg [65] ≠ [1, 65, 0] := by decide

/-- Claim C3 (amended): with the default configuration, encoding the
one-byte input "A" produces exactly the two bytes 01 41 (literal length
1, the byte 0x41; the stream ends there, with no match-length byte), and
decoding that output yields "A" again. -/
theorem c3_encode_a_amended :
    lzEncode dfltCfg [65] = [1, 65] ∧
    decodeRun dfltCfg (lzEncode dfltCfg [65]) = ([65], none) :=
  ⟨by decide, by decide⟩

/-- Claim C4 (code bug): in get_len, after reading the second byte c2 of
a two-byte length the code tests `c == EOF` instead of `c2 == EOF`, so
the branch printing "ERROR, end of file reading second byte of length"
is unreachable.  At max = 300 (> 255) and input ending after the first
length byte 200 (≥ 128), get_len silently returns 200 + (EOF << 7) =
200 - 128 = 72 instead of reporting the hard error; the whole decoder
then misreports the truncation as a short literal. -/
theorem c4_getlen_eof_bug :
    getLen 300 [200] = some (72, []) ∧
    decodeRun l300Cfg [200] = ([], some DErr.shortLit) :=
  ⟨by decide, by decide⟩

/-- Claim C5 (counterexample): with bits_moff = 0 and input [5,5,5], the
encoder output is the non-empty stream 01 05 02; removing its last byte
leaves 01 05, which the decoder consumes without reporting any error
(the truncated stream ends cleanly at a match-length boundary), returning
the prefix [5].  So truncation is not always reported as "short file". -/
theorem c5_truncation_cex :
    lzEncode rleCfg [5, 5, 5] = [1, 5, 2] ∧
    lzEncode rleCfg [5, 5, 5] ≠ [] ∧
    decodeRun rleCfg ((lzEncode rleCfg [5, 5, 5]).dropLast) = ([5], none) :=
  ⟨by decide, by decide, by decide⟩

/-- Claim C9: encoding the empty input produces an empty output stream,
and decoding an empty stream terminates cleanly (clean EOF at the first
literal-length byte) with 0 bytes produced and no error, for every
configuration. -/
theorem c9_empty (c : Cfg) :
    lzEncode c [] = [] ∧ decodeRun c [] = ([], none) :=
  ⟨rfl, rfl⟩

/-- The length-field round trip shared by the literal and match headers
(also the content of claim C7). -/
theorem getLen_lenHdr (limit L : Nat) (rest : List Nat)
    (hL : L ≤ limit) (h32 : limit ≤ 32895) :
    getLen limit (lenHdr limit L ++ rest) = some (L, rest) ∧
    (255 < limit → 128 ≤ L → lenHdr limit L = [L % 128 + 128, L / 128 - 1]) := by
  have hsnd : 255 < limit → 128 ≤ L → (L / 128 - 1) % 256 = L / 128 - 1 :=
    fun _ _ => Nat.mod_eq_of_lt (by omega)
  constructor
  · rw [lenHdr]
    by_cases h : 127 < L ∧ 255 < limit
    · rw [if_pos h]
      have h1 : ¬(limit < 256 ∨ L % 128 + 128 < 128) := by omega
      simp only [List.cons_append, List.nil_append, getLen, h1, if_false]
      rw [hsnd h.2 (by omega)]
      have : L % 128 + 128 + (L / 128 - 1) * 128 = L := by omega
      rw [this]
    · rw [if_neg h]
      have hL256 : L % 256 = L := Nat.mod_eq_of_lt (by omega)
      rw [hL256]
      have h1 : limit < 256 ∨ L < 128 := by omega
      simp only [List.cons_append, List.nil_append, getLen, h1, if_true]
  · intro ha hb
    rw [lenHdr, if_pos ⟨by omega, ha⟩, hsnd ha hb]

/-- Claim C7: the length-field encodings are mutually inverse.  For every
limit ≤ 32895 and L ≤ limit, reading back the written length field with
get_len yields L and leaves the rest of the stream untouched; in the
two-byte regime (limit > 255, L ≥ 128) the bytes written are
0x80|(L&0x7F) and (L>>7)-1. -/
theorem c7_len_field_inverse (limit L : Nat) (rest : List Nat)
    (hL : L ≤ limit) (h32 : limit ≤ 32895) :
    getLen limit (lenHdr limit L ++ rest) = some (L, rest) ∧
    (255 < limit → 128 ≤ L → lenHdr limit L = [L % 128 + 128, L / 128 - 1]) :=
  getLen_lenHdr limit L rest hL h32

/-! ## Emitter block alternation -/

/-- The emission walk alternates block kinds, and its first block (if
any) has the kind opposite to the in_literal state entered with: a
zero-length block of the opposite kind is emitted by lzop_encode between
two blocks of the same kind. -/
theorem lzWalk_alt (c : Cfg) (data : List Nat) (cs : List St) :
    ∀ f pos il,
      List.Chain' (fun a b => a.isLit ≠ b.isLit) (lzWalk c data cs f pos il) ∧
      (∀ b, (lzWalk c data cs f pos il).head? = some b → b.isLit = !il) := by
  intro f
  induction f with
  | zero => intro pos il; simp [lzWalk]
  | succ f ih =>
    intro pos il
    rw [lzWalk]
    by_cases hpos : pos < data.length
    · rw [if_pos hpos]
      by_cases hbr : (cs.getD pos sentSt).lbits + (if il then zmc c else 0) ≤
          (cs.getD pos sentSt).mbits
      · rw [if_pos hbr]
        obtain ⟨ihc, ihh⟩ :=
          ih (pos + max (min (cs.getD pos sentSt).llen c.maxLlen) 1) true
        cases il
        · simp only [Bool.false_eq_true, if_false, List.nil_append]
          refine ⟨?_, ?_⟩
          · rw [List.chain'_cons']
            refine ⟨?_, ihc⟩
            intro h hh
            have hthis := ihh h hh
            cases h <;> simp_all [Blk.isLit]
          · intro b hb
            simp only [List.head?_cons, Option.some.injEq] at hb
            subst hb
            rfl
        · simp only [if_true, List.cons_append, List.nil_append]
          refine ⟨?_, ?_⟩
          · rw [List.chain'_cons, List.chain'_cons']
            refine ⟨by simp [Blk.isLit], ?_, ihc⟩
            intro h hh
            have hthis := ihh h hh
            cases h <;> simp_all [Blk.isLit]
          · intro b hb
            simp only [List.head?_cons, Option.some.injEq] at hb
            subst hb
            rfl
      · rw [if_neg hbr]
        obtain ⟨ihc, ihh⟩ := ih (pos + max (cs.getD pos sentSt).mlen 1) false
        cases il
        · simp only [Bool.false_eq_true, if_false, List.cons_append, List.nil_append]
          refine ⟨?_, ?_⟩
          · rw [List.chain'_cons, List.chain'_cons']
            refine ⟨by simp [Blk.isLit], ?_, ihc⟩
            intro h hh
            have hthis := ihh h hh
            cases h <;> simp_all [Blk.isLit]
          · intro b hb
            simp only [List.head?_cons, Option.some.injEq] at hb
            subst hb
            rfl
        · simp only [if_true, List.nil_append]
          refine ⟨?_, ?_⟩
          · rw [List.chain'_cons']
            refine ⟨?_, ihc⟩
            intro h hh
            have hthis := ihh h hh
            cases h <;> simp_all [Blk.isLit]
          · intro b hb
            simp only [List.head?_cons, Option.some.injEq] at hb
            subst hb
            rfl
    · rw [if_neg hpos]
      simp

/-- Claim C8: for every non-empty input, the emitted block sequence
begins with a literal block, strictly alternates literal and match
blocks (zero-length blocks of the opposite kind are inserted between two
consecutive blocks of the same kind), and the byte stream is exactly the
concatenation of the serialised blocks, with no terminating sentinel
byte after them. -/
theorem c8_block_structure (c : Cfg) (data : List Nat) (hne : data ≠ []) :
    (∃ len bs tl,
      lzWalk c data (cells c data) data.length 0 false = Blk.lit len bs :: tl) ∧
    List.Chain' (fun a b => a.isLit ≠ b.isLit)
      (lzWalk c data (cells c data) data.length 0 false) ∧
    lzEncode c data =
      ((lzWalk c data (cells c data) data.length 0 false).map (serBlk c)).flatten := by
  obtain ⟨hc, hh⟩ := lzWalk_alt c data (cells c data) data.length 0 false
  refine ⟨?_, hc, rfl⟩
  have hlen : 0 < data.length := by
    cases data with
    | nil => exact absurd rfl hne
    | cons a l => simp
  cases hfl : lzWalk c data (cells c data) data.length 0 false with
  | nil =>
    exfalso
    rcases hf : data.length with _ | f
    · omega
    · rw [hf] at hfl
      rw [lzWalk, if_pos (by omega)] at hfl
      by_cases hbr : ((cells c data).getD 0 sentSt).lbits + (if false then zmc c else 0) ≤
          ((cells c data).getD 0 sentSt).mbits
      · rw [if_pos hbr] at hfl
        simp at hfl
      · rw [if_neg hbr] at hfl
        simp at hfl
  | cons b tl =>
    have hb := hh b (by rw [hfl]; rfl)
    cases b with
    | lit len bs => exact ⟨len, bs, tl, rfl⟩
    | mat len off => simp [Blk.isLit] at hb

/-- Witness for c8_block_structure at the default configuration and
input [65, 66]. -/
theorem c8_block_structure_witness :
    ([65, 66] : List Nat) ≠ [] ∧
    ((∃ len bs tl,
      lzWalk dfltCfg [65, 66] (cells dfltCfg [65, 66]) 2 0 false = Blk.lit len bs :: tl) ∧
    List.Chain' (fun a b => a.isLit ≠ b.isLit)
      (lzWalk dfltCfg [65, 66] (cells dfltCfg [65, 66]) 2 0 false) ∧
    lzEncode dfltCfg [65, 66] =
      ((lzWalk dfltCfg [65, 66] (cells dfltCfg [65, 66]) 2 0 false).map
        (serBlk dfltCfg)).flatten) :=
  ⟨by decide, c8_block_structure dfltCfg [65, 66] (by decide)⟩

/-- Witness for c7_len_field_inverse at limit 300, L 200. -/
theorem c7_len_field_inverse_witness :
    (200 ≤ 300 ∧ (300 : Nat) ≤ 32895) ∧
    (getLen 300 (lenHdr 300 200 ++ [9]) = some (200, [9]) ∧
      (255 < 300 → 128 ≤ 200 → lenHdr 300 200 = [200 % 128 + 128, 200 / 128 - 1])) :=
  ⟨⟨by decide, by decide⟩, c7_len_field_inverse 300 200 [9] (by decide) (by decide)⟩

/-! ## Cost model lemmas -/

theorem maxOff_pos (c : Cfg) : 1 ≤ c.maxOff := Nat.one_le_two_pow

theorem mlen_cost_zero (c : Cfg) : mlen_cost c 0 = 8 := by
  simp [mlen_cost]

theorem mlen_cost_nonneg (c : Cfg) (l : Nat) : 0 ≤ mlen_cost c l := by
  rw [mlen_cost]
  split
  · norm_num [INFC]
  · split <;> norm_num

theorem mlen_cost_lt_inf (c : Cfg) (l : Nat) (h : mlen_cost c l < INFC) :
    l ≤ c.maxMlen := by
  rw [mlen_cost] at h
  by_contra hlt
  rw [if_pos (by omega)] at h
  omega

theorem moff_cost_nonneg (c : Cfg) (o : Nat) : 0 ≤ moff_cost c o := by
  rw [moff_cost]
  split
  · norm_num [INFC]
  · split
    · norm_num
    · split <;> norm_num

theorem moff_cost_one (c : Cfg) :
    moff_cost c 1 = 0 ∨ moff_cost c 1 = 8 ∨ moff_cost c 1 = 16 := by
  have h1 : ¬(c.maxOff < 1 ∨ 1 < 1) := by
    have := maxOff_pos c
    omega
  rw [moff_cost, if_neg h1]
  split
  · exact Or.inl rfl
  · split
    · exact Or.inr (Or.inl rfl)
    · exact Or.inr (Or.inr rfl)

theorem zmc_lb (c : Cfg) : 8 ≤ zmc c := by
  rw [zmc, mlen_cost_zero]
  rcases moff_cost_one c with h | h | h <;> split <;> simp [h]

theorem zmc_ub (c : Cfg) : zmc c ≤ 24 := by
  rw [zmc, mlen_cost_zero]
  rcases moff_cost_one c with h | h | h <;> split <;> simp [h]

theorem llenCostF_fuel (c : Cfg) (hm : 1 ≤ c.maxLlen) :
    ∀ l f g, l ≤ f → l ≤ g → llenCostF c f l = llenCostF c g l := by
  intro l
  induction l using Nat.strong_induction_on with
  | _ l ih =>
    intro f g hf hg
    rcases l with _ | l'
    · cases f <;> cases g <;> rfl
    · rcases f with _ | f'
      · omega
      · rcases g with _ | g'
        · omega
        · simp only [llenCostF]
          by_cases hc : c.maxLlen < l' + 1
          · rw [if_pos hc, if_pos hc,
              ih (l' + 1 - c.maxLlen) (by omega) f' g' (by omega) (by omega)]
          · rw [if_neg hc, if_neg hc]

theorem llen_cost_zero (c : Cfg) : llen_cost c 0 = 0 := rfl

theorem llen_cost_rec (c : Cfg) (hm : 1 ≤ c.maxLlen) (l : Nat)
    (h : c.maxLlen < l) :
    llen_cost c l = (8 + zmc c) + llen_cost c (l - c.maxLlen) := by
  obtain ⟨l', rfl⟩ : ∃ l', l = l' + 1 := ⟨l - 1, by omega⟩
  rw [llen_cost, llenCostF, if_pos h]
  congr 1
  exact llenCostF_fuel c hm (l' + 1 - c.maxLlen) l' (l' + 1 - c.maxLlen)
    (by omega) (by omega)

theorem llen_cost_base (c : Cfg) (l : Nat) (h0 : 1 ≤ l) (h : l ≤ c.maxLlen) :
    llen_cost c l = if 255 < c.maxLlen ∧ 127 < l then 16 else 8 := by
  obtain ⟨l', rfl⟩ : ∃ l', l = l' + 1 := ⟨l - 1, by omega⟩
  rw [llen_cost, llenCostF, if_neg (by omega)]

theorem llen_cost_nonneg (c : Cfg) (hm : 1 ≤ c.maxLlen) (l : Nat) :
    0 ≤ llen_cost c l := by
  induction l using Nat.strong_induction_on with
  | _ l ih =>
    rcases Nat.eq_zero_or_pos l with rfl | hl
    · rw [llen_cost_zero]
    · by_cases hc : c.maxLlen < l
      · rw [llen_cost_rec c hm l hc]
        have := ih (l - c.maxLlen) (by omega)
        have := zmc_lb c
        omega
      · rw [llen_cost_base c l hl (by omega)]
        split <;> norm_num

theorem llen_cost_ge_eight (c : Cfg) (hm : 1 ≤ c.maxLlen) (l : Nat)
    (h0 : 1 ≤ l) : 8 ≤ llen_cost c l := by
  by_cases hc : c.maxLlen < l
  · rw [llen_cost_rec c hm l hc]
    have := llen_cost_nonneg c hm (l - c.maxLlen)
    have := zmc_lb c
    omega
  · rw [llen_cost_base c l h0 (by omega)]
    split <;> norm_num

theorem llen_cost_succ_ge (c : Cfg) (hm : 1 ≤ c.maxLlen) (l : Nat) :
    llen_cost c l ≤ llen_cost c (l + 1) := by
  induction l using Nat.strong_induction_on with
  | _ l ih =>
    rcases Nat.eq_zero_or_pos l with rfl | hl
    · rw [llen_cost_zero]
      exact llen_cost_nonneg c hm 1
    · by_cases hc : c.maxLlen < l
      · rw [llen_cost_rec c hm l hc, llen_cost_rec c hm (l + 1) (by omega)]
        have heq : l + 1 - c.maxLlen = (l - c.maxLlen) + 1 := by omega
        rw [heq]
        have := ih (l - c.maxLlen) (by omega)
        omega
      · by_cases hc1 : c.maxLlen < l + 1
        · have hll : l = c.maxLlen := by omega
          rw [llen_cost_rec c hm (l + 1) hc1, llen_cost_base c l hl (by omega)]
          have heq : l + 1 - c.maxLlen = 1 := by omega
          rw [heq, llen_cost_base c 1 (by omega) (by omega)]
          have := zmc_lb c
          split <;> [skip; skip] <;> split <;> omega
        · rw [llen_cost_base c l hl (by omega),
            llen_cost_base c (l + 1) (by omega) (by omega)]
          split <;> split <;> omega

theorem llen_cost_succ_le (c : Cfg) (hm : 1 ≤ c.maxLlen) (l : Nat) :
    llen_cost c (l + 1) ≤ llen_cost c l + 16 + zmc c := by
  induction l using Nat.strong_induction_on with
  | _ l ih =>
    rcases Nat.eq_zero_or_pos l with rfl | hl
    · rw [llen_cost_zero, llen_cost_base c 1 (by omega) (by omega)]
      have := zmc_lb c
      split <;> omega
    · by_cases hc : c.maxLlen < l
      · rw [llen_cost_rec c hm l hc, llen_cost_rec c hm (l + 1) (by omega)]
        have heq : l + 1 - c.maxLlen = (l - c.maxLlen) + 1 := by omega
        rw [heq]
        have := ih (l - c.maxLlen) (by omega)
        omega
      · by_cases hc1 : c.maxLlen < l + 1
        · have hll : l = c.maxLlen := by omega
          rw [llen_cost_rec c hm (l + 1) hc1, llen_cost_base c l hl (by omega)]
          have heq : l + 1 - c.maxLlen = 1 := by omega
          rw [heq, llen_cost_base c 1 (by omega) (by omega)]
          split <;> [skip; skip] <;> split <;> omega
        · rw [llen_cost_base c l hl (by omega),
            llen_cost_base c (l + 1) (by omega) (by omega)]
          have := zmc_lb c
          split <;> split <;> omega

theorem llen_cost_mono (c : Cfg) (hm : 1 ≤ c.maxLlen) {l l' : Nat}
    (h : l ≤ l') : llen_cost c l ≤ llen_cost c l' := by
  induction l' with
  | zero =>
    have : l = 0 := by omega
    subst this
    exact le_refl _
  | succ n ih =>
    rcases Nat.lt_or_ge l (n + 1) with hlt | hge
    · exact le_trans (ih (by omega)) (llen_cost_succ_ge c hm n)
    · have : l = n + 1 := by omega
      subst this
      exact le_refl _

/-! ## Parse table indexing -/

theorem cellAt_zero (c : Cfg) (data : List Nat) : cellAt c data 0 = sentSt := rfl

theorem cellAt_succ (c : Cfg) (data : List Nat) (d : Nat) :
    cellAt c data (d + 1) = mkCell c data (d + 1) (tblAux c data d) := rfl

theorem tblAux_getD (c : Cfg) (data : List Nat) :
    ∀ d i, i ≤ d → (tblAux c data d).getD i sentSt = cellAt c data (d - i) := by
  intro d
  induction d with
  | zero =>
    intro i hi
    have : i = 0 := by omega
    subst this
    rfl
  | succ d ih =>
    intro i hi
    cases i with
    | zero => rfl
    | succ i =>
      have : (tblAux c data (d + 1)).getD (i + 1) sentSt =
          (tblAux c data d).getD i sentSt := rfl
      rw [this, ih i (by omega)]
      congr 1
      omega

theorem cells_getD (c : Cfg) (data : List Nat) (pos : Nat)
    (h : pos ≤ data.length) :
    (cells c data).getD pos sentSt = cellAt c data (data.length - pos) :=
  tblAux_getD c data data.length pos h

/-! ## Loop characterisations for mkCell -/

theorem litLoop1_out (c : Cfg) (prev : List St) :
    ∀ (l : List Nat) (ml : Nat) (lb : Int) (ll : Nat),
      ml ≤ (litLoop1 c prev l (ml, lb, ll)).1 ∧
      ((litLoop1 c prev l (ml, lb, ll)).1 = ml ∨
        ∃ i ∈ l, (litLoop1 c prev l (ml, lb, ll)).1 =
          (prev.getD (i - 1) sentSt).llen + i) ∧
      (litLoop1 c prev l (ml, lb, ll)).2.1 ≤ lb ∧
      (∀ i ∈ l, (litLoop1 c prev l (ml, lb, ll)).2.1 ≤
        (prev.getD (i - 1) sentSt).lbits + 8 * (i : Int) -
          llen_cost c (prev.getD (i - 1) sentSt).llen +
          llen_cost c ((prev.getD (i - 1) sentSt).llen + i)) ∧
      ((litLoop1 c prev l (ml, lb, ll)).2 = (lb, ll) ∨
        ∃ i ∈ l, (litLoop1 c prev l (ml, lb, ll)).2 =
          ((prev.getD (i - 1) sentSt).lbits + 8 * (i : Int) -
            llen_cost c (prev.getD (i - 1) sentSt).llen +
            llen_cost c ((prev.getD (i - 1) sentSt).llen + i),
            (prev.getD (i - 1) sentSt).llen + i)) := by
  intro l
  induction l with
  | nil =>
    intro ml lb ll
    simp [litLoop1]
  | cons i0 is ih =>
    intro ml lb ll
    simp only [litLoop1]
    set nxt := prev.getD (i0 - 1) sentSt with hnxt
    set ml2 := if ml < nxt.llen + i0 then nxt.llen + i0 else ml with hml2
    set cand := nxt.lbits + 8 * (i0 : Int) - llen_cost c nxt.llen +
      llen_cost c (nxt.llen + i0) with hcand
    by_cases hlt : cand < lb
    · rw [if_pos hlt]
      obtain ⟨g1, g2, g3, g4, g5⟩ := ih ml2 cand (nxt.llen + i0)
      refine ⟨?_, ?_, ?_, ?_, ?_⟩
      · have : ml ≤ ml2 := by rw [hml2]; split <;> omega
        omega
      · rcases g2 with h | ⟨i, hi, hv⟩
        · rw [h, hml2]
          split
          · exact Or.inr ⟨i0, by simp, rfl⟩
          · exact Or.inl rfl
        · exact Or.inr ⟨i, by simp [hi], hv⟩
      · omega
      · intro i hi
        rcases List.mem_cons.mp hi with rfl | hmem
        · rw [hcand, hnxt] at g3
          exact g3
        · exact g4 i hmem
      · rcases g5 with h | ⟨i, hi, hv⟩
        · exact Or.inr ⟨i0, by simp, h⟩
        · exact Or.inr ⟨i, by simp [hi], hv⟩
    · rw [if_neg hlt]
      obtain ⟨g1, g2, g3, g4, g5⟩ := ih ml2 lb ll
      refine ⟨?_, ?_, ?_, ?_, ?_⟩
      · have : ml ≤ ml2 := by rw [hml2]; split <;> omega
        omega
      · rcases g2 with h | ⟨i, hi, hv⟩
        · rw [h, hml2]
          split
          · exact Or.inr ⟨i0, by simp, rfl⟩
          · exact Or.inl rfl
        · exact Or.inr ⟨i, by simp [hi], hv⟩
      · exact g3
      · intro i hi
        rcases List.mem_cons.mp hi with rfl | hmem
        · have hle := le_trans g3 (not_lt.mp hlt)
          rw [hcand, hnxt] at hle
          exact hle
        · exact g4 i hmem
      · rcases g5 with h | ⟨i, hi, hv⟩
        · exact Or.inl h
        · exact Or.inr ⟨i, by simp [hi], hv⟩

theorem litLoop2_out (c : Cfg) (prev : List St) :
    ∀ (l : List Nat) (lb : Int) (ll : Nat),
      (litLoop2 c prev l (lb, ll)).1 ≤ lb ∧
      ((litLoop2 c prev l (lb, ll)) = (lb, ll) ∨
        ∃ i ∈ l, (litLoop2 c prev l (lb, ll)) =
          ((prev.getD (i - 1) sentSt).mbits + 8 * (i : Int) + llen_cost c i, i)) := by
  intro l
  induction l with
  | nil =>
    intro lb ll
    simp [litLoop2]
  | cons i0 is ih =>
    intro lb ll
    simp only [litLoop2]
    set cand := (prev.getD (i0 - 1) sentSt).mbits + 8 * (i0 : Int) +
      llen_cost c i0 with hcand
    by_cases hlt : cand < lb
    · rw [if_pos hlt]
      obtain ⟨g1, g2⟩ := ih cand i0
      refine ⟨by omega, ?_⟩
      rcases g2 with h | ⟨i, hi, hv⟩
      · exact Or.inr ⟨i0, by simp, h⟩
      · exact Or.inr ⟨i, by simp [hi], hv⟩
    · rw [if_neg hlt]
      obtain ⟨g1, g2⟩ := ih lb ll
      refine ⟨g1, ?_⟩
      rcases g2 with h | ⟨i, hi, hv⟩
      · exact Or.inl h
      · exact Or.inr ⟨i, by simp [hi], hv⟩

theorem matLoop_out (c : Cfg) (prev : List St) (mp : Nat) :
    ∀ (l : List Nat) (mb : Int) (mlen : Nat),
      (matLoop c prev mp l (mb, mlen)).1 ≤ mb ∧
      ((matLoop c prev mp l (mb, mlen)) = (mb, mlen) ∨
        ∃ i ∈ l,
          ((matLoop c prev mp l (mb, mlen)) =
            ((prev.getD (i - 1) sentSt).lbits + moff_cost c mp + mlen_cost c i, i) ∨
          (matLoop c prev mp l (mb, mlen)) =
            ((prev.getD (i - 1) sentSt).mbits + llen_cost c 1 + moff_cost c mp +
              mlen_cost c i, i))) := by
  intro l
  induction l with
  | nil =>
    intro mb mlen
    simp [matLoop]
  | cons i0 is ih =>
    intro mb mlen
    simp only [matLoop]
    set nxt := prev.getD (i0 - 1) sentSt with hnxt
    set mbc := nxt.mbits + llen_cost c 1 + moff_cost c mp + mlen_cost c i0 with hmbc
    set lbc := nxt.lbits + moff_cost c mp + mlen_cost c i0 with hlbc
    by_cases h1 : lbc ≤ mb
    · rw [if_pos h1]
      by_cases h2 : mbc ≤ (lbc, i0).1
      · rw [if_pos h2]
        obtain ⟨g1, g2⟩ := ih mbc i0
        refine ⟨by simp at h2; omega, ?_⟩
        rcases g2 with h | ⟨i, hi, hv⟩
        · exact Or.inr ⟨i0, by simp, Or.inr h⟩
        · exact Or.inr ⟨i, by simp [hi], hv⟩
      · rw [if_neg h2]
        obtain ⟨g1, g2⟩ := ih lbc i0
        refine ⟨by omega, ?_⟩
        rcases g2 with h | ⟨i, hi, hv⟩
        · exact Or.inr ⟨i0, by simp, Or.inl h⟩
        · exact Or.inr ⟨i, by simp [hi], hv⟩
    · rw [if_neg h1]
      by_cases h2 : mbc ≤ (mb, mlen).1
      · rw [if_pos h2]
        obtain ⟨g1, g2⟩ := ih mbc i0
        refine ⟨by simp at h2; omega, ?_⟩
        rcases g2 with h | ⟨i, hi, hv⟩
        · exact Or.inr ⟨i0, by simp, Or.inr h⟩
        · exact Or.inr ⟨i, by simp [hi], hv⟩
      · rw [if_neg h2]
        obtain ⟨g1, g2⟩ := ih mb mlen
        refine ⟨g1, ?_⟩
        rcases g2 with h | ⟨i, hi, hv⟩
        · exact Or.inl h
        · exact Or.inr ⟨i, by simp [hi], hv⟩

/-! ## The parse-table invariant -/

theorem cellAt_inv (c : Cfg) (data : List Nat) (hv : c.Valid)
    (hcap : data.length ≤ 131072) :
    ∀ dd, dd ≤ data.length →
      CellInv c data (data.length - dd) (cellAt c data dd) := by
  obtain ⟨hb16, hmm1, hmm2, hll1, hll2, hex, hrel⟩ := hv
  intro dd
  induction dd using Nat.strong_induction_on with
  | _ dd ih =>
    intro hdd
    rcases dd with _ | d
    · rw [cellAt_zero]
      unfold CellInv
      refine ⟨?_, ?_, ?_, ?_, ?_, ?_⟩
      · simp [sentSt]
      · simp [sentSt]
      · intro h; omega
      · simp [sentSt]
      · simp [sentSt, INFC]
      · intro h
        simp [sentSt] at h
    · have hpos : data.length - (d + 1) + (d + 1) = data.length := by omega
      set pos := data.length - (d + 1) with hposdef
      have hprevAt : ∀ i, 1 ≤ i → i ≤ d + 1 →
          (tblAux c data d).getD (i - 1) sentSt = cellAt c data (d + 1 - i) := by
        intro i h1 h2
        rw [tblAux_getD c data d (i - 1) (by omega)]
        congr 1
        omega
      have hprevInv : ∀ i, 1 ≤ i → i ≤ d + 1 →
          CellInv c data (pos + i) ((tblAux c data d).getD (i - 1) sentSt) := by
        intro i h1 h2
        rw [hprevAt i h1 h2]
        have hres := ih (d + 1 - i) (by omega) (by omega)
        have heq : data.length - (d + 1 - i) = pos + i := by omega
        rw [heq] at hres
        exact hres
      set L1 := List.range' 1 (min 5 (d + 1)) with hL1
      obtain ⟨a1, a2, a3, a4, a5⟩ := litLoop1_out c (tblAux c data d) L1 0 INFC 0
      set s1 := litLoop1 c (tblAux c data d) L1 (0, INFC, 0) with hs1
      set L2 := List.range' 1 (s1.1 - 1) with hL2
      obtain ⟨b1, b2⟩ := litLoop2_out c (tblAux c data d) L2 s1.2.1 s1.2.2
      set s2 := litLoop2 c (tblAux c data d) L2 (s1.2.1, s1.2.2) with hs2
      set mres := matchF c data pos with hmres
      set L3 := List.range' 1 mres.1 with hL3
      obtain ⟨e1, e2⟩ := matLoop_out c (tblAux c data d) mres.2 L3 INFC 0
      set s3 := matLoop c (tblAux c data d) mres.2 L3 (INFC, 0) with hs3
      have hmk : cellAt c data (d + 1) = ⟨s2.1, s2.2, s3.1, s3.2, mres.2⟩ := rfl
      clear_value s3 L3 mres s2 L2 s1 L1 pos
      have hone : (1 : Nat) ∈ L1 := by
        rw [hL1]
        exact List.mem_range'_1.mpr ⟨le_refl 1, by omega⟩
      -- upper bound on the first literal candidate, hence on s1 and s2
      have hub1 : s1.2.1 ≤ 48 * ((d : Int) + 1) := by
        have h4 := a4 1 hone
        obtain ⟨p0, p1, _, _, _, _⟩ := hprevInv 1 (le_refl 1) (by omega)
        have hd : data.length - (pos + 1) = d := by omega
        rw [hd] at p1
        have hsucc := llen_cost_succ_le c (by omega)
          ((tblAux c data d).getD 0 sentSt).llen
        have hz := zmc_ub c
        push_cast at h4 p1 ⊢
        omega
      have hcapI : 48 * ((d : Int) + 1) < INFC := by
        have hd1 : d + 1 ≤ 131072 := le_trans hdd hcap
        have : ((d : Int) + 1) ≤ 131072 := by exact_mod_cast hd1
        rw [INFC]
        omega
      have hmlub : s1.1 ≤ d + 1 := by
        rcases a2 with h | ⟨i, hiL, hvv⟩
        · omega
        · have him := List.mem_range'_1.mp (hL1 ▸ hiL)
          obtain ⟨_, _, _, q3, _, _⟩ := hprevInv i (by omega) (by omega)
          rw [hvv]
          omega
      have hs1nn : 0 ≤ s1.2.1 := by
        rcases a5 with h | ⟨i, hiL, hvv⟩
        · have : s1.2.1 = INFC := by rw [h]
          rw [this, INFC]
          omega
        · have him := List.mem_range'_1.mp (hL1 ▸ hiL)
          obtain ⟨q0, _, _, _, _, _⟩ := hprevInv i (by omega) (by omega)
          have hmono := llen_cost_mono c (by omega)
            (Nat.le_add_right ((tblAux c data d).getD (i - 1) sentSt).llen i)
          have : s1.2.1 = ((tblAux c data d).getD (i - 1) sentSt).lbits +
              8 * (i : Int) -
              llen_cost c ((tblAux c data d).getD (i - 1) sentSt).llen +
              llen_cost c (((tblAux c data d).getD (i - 1) sentSt).llen + i) := by
            rw [hvv]
          rw [this]
          have hi0 : (0 : Int) ≤ 8 * (i : Int) := by positivity
          omega
      have hs1llen : 1 ≤ s1.2.2 ∧ pos + s1.2.2 ≤ data.length := by
        rcases a5 with h | ⟨i, hiL, hvv⟩
        · exfalso
          have : s1.2.1 = INFC := by rw [h]
          omega
        · have him := List.mem_range'_1.mp (hL1 ▸ hiL)
          obtain ⟨_, _, _, q3, _, _⟩ := hprevInv i (by omega) (by omega)
          have : s1.2.2 = ((tblAux c data d).getD (i - 1) sentSt).llen + i := by
            rw [hvv]
          rw [this]
          omega
      have hs2ub : s2.1 ≤ 48 * ((d : Int) + 1) := le_trans b1 hub1
      have hs2nn : 0 ≤ s2.1 := by
        rcases b2 with h | ⟨i, hiL, hvv⟩
        · have : s2.1 = s1.2.1 := by rw [h]
          omega
        · have him := List.mem_range'_1.mp (hL2 ▸ hiL)
          obtain ⟨_, _, _, _, q4, _⟩ := hprevInv i (by omega) (by omega)
          have hc0 := llen_cost_nonneg c (by omega) i
          have : s2.1 = ((tblAux c data d).getD (i - 1) sentSt).mbits +
              8 * (i : Int) + llen_cost c i := by rw [hvv]
          rw [this]
          have hi0 : (0 : Int) ≤ 8 * (i : Int) := by positivity
          omega
      have hs2llen : 1 ≤ s2.2 ∧ pos + s2.2 ≤ data.length := by
        rcases b2 with h | ⟨i, hiL, hvv⟩
        · have h1 : s2.2 = s1.2.2 := by rw [h]
          rw [h1]
          exact hs1llen
        · have him := List.mem_range'_1.mp (hL2 ▸ hiL)
          have : s2.2 = i := by rw [hvv]
          rw [this]
          omega
      obtain ⟨ms1, ms2, ms3, ms4⟩ := matchF_spec c data pos
      rw [← hmres] at ms2 ms4
      clear hmres ms1 ms3
      have hs3nn : 0 ≤ s3.1 := by
        rcases e2 with h | ⟨l, hlL, hvv⟩
        · have : s3.1 = INFC := by rw [h]
          rw [this, INFC]
          omega
        · have hlm := List.mem_range'_1.mp (hL3 ▸ hlL)
          obtain ⟨q0, _, _, _, q4, _⟩ := hprevInv l (by omega) (by omega)
          have hc1 := llen_cost_nonneg c (by omega) 1
          have hc2 := moff_cost_nonneg c mres.2
          have hc3 := mlen_cost_nonneg c l
          rcases hvv with hvv | hvv <;>
            · have := congrArg Prod.fst hvv
              simp only [] at this
              omega
      rw [hmk]
      unfold CellInv
      refine ⟨hs2nn, ?_, ?_, ?_, hs3nn, ?_⟩
      · show s2.1 ≤ 48 * ((data.length - pos : Nat) : Int)
        have hd : (data.length - pos : Nat) = d + 1 := by omega
        rw [hd]
        push_cast
        omega
      · intro _
        exact hs2llen.1
      · exact hs2llen.2
      · intro hfin
        change s3.1 < INFC at hfin
        rcases e2 with h | ⟨l, hlL, hvv⟩
        · exfalso
          have : s3.1 = INFC := by rw [h]
          omega
        · have hlm := List.mem_range'_1.mp (hL3 ▸ hlL)
          have hl3 : l ≤ mres.1 := by omega
          have hmlen : s3.2 = l := by
            rcases hvv with hvv | hvv <;>
              · have := congrArg Prod.snd hvv
                simpa using this
          have hms2a : mres.1 ≤ c.maxMlen := le_trans ms2 (Nat.min_le_left _ _)
          have hms2b : mres.1 ≤ data.length - pos := le_trans ms2 (Nat.min_le_right _ _)
          have hg1 : 1 ≤ s3.2 := by omega
          have hg2 : pos + s3.2 ≤ data.length := by omega
          have hg3 : s3.2 ≤ c.maxMlen := by omega
          obtain ⟨i, hi1, hi2, hi3, hi4, hi6⟩ := ms4 (by omega)
          refine ⟨?_, ?_, ?_, ?_, ?_, ?_, ?_⟩
          · exact hg1
          · exact hg2
          · exact hg3
          · show 1 ≤ mres.2
            rw [hi4]
            exact Nat.sub_pos_of_lt hi2
          · show mres.2 ≤ pos
            rw [hi4]
            exact Nat.sub_le pos i
          · show mres.2 ≤ c.maxOff
            rw [hi4]
            have h2 : pos ≤ i + c.maxOff := Nat.sub_le_iff_le_add.mp hi1
            exact Nat.sub_le_iff_le_add.mpr (by rw [Nat.add_comm]; exact h2)
          · intro j hj
            change j < s3.2 at hj
            show data.getD (pos + j) 0 = data.getD (pos - mres.2 + j) 0
            have hlcp : j < lcp data pos i (min c.maxMlen (data.length - pos)) := by
              rw [hi3]
              omega
            have heq := lcp_eq_of_lt data pos i
              (min c.maxMlen (data.length - pos)) j hlcp
            have hieq : i = pos - mres.2 := by
              rw [hi4]
              omega
            rw [← hieq]
            exact heq

/-! ## Ring buffer coherence -/

theorem mod_ne_of_lt_sub {a b w : Nat} (_hw : 0 < w) (hab : a < b)
    (hsub : b - a < w) : a % w ≠ b % w := by
  intro h
  have hmeq : a ≡ b [MOD w] := h
  have hdvd : w ∣ b - a := (Nat.modEq_iff_dvd' (by omega)).mp hmeq
  have := Nat.le_of_dvd (by omega) hdvd
  omega

theorem coh_write (data : List Nat) (w pos : Nat) (ring : Nat → Nat)
    (hw : 0 < w) (h : Coh data w pos ring) (x : Nat)
    (hx : x = data.getD pos 0) :
    Coh data w (pos + 1) (fun k => if k = pos % w then x else ring k) := by
  intro j hj hjw
  by_cases hjp : j = pos
  · subst hjp
    simp [hx]
  · have hlt : j < pos := by omega
    have hne : j % w ≠ pos % w := mod_ne_of_lt_sub hw hlt (by omega)
    simp only [hne, if_false]
    exact h j hlt (by omega)

theorem drop_take_cons (data : List Nat) (pos n : Nat) (h : pos < data.length) :
    (data.drop pos).take (n + 1) = data.getD pos 0 :: (data.drop (pos + 1)).take n := by
  rw [List.drop_eq_getElem_cons h]
  rw [List.take_succ_cons]
  congr 1
  rw [List.getD_eq_getElem?_getD, List.getElem?_eq_getElem h]
  rfl

/-! ## Decoder copy loops -/

theorem copyLits_full (mask : Nat) (data : List Nat) :
    ∀ (bytes : List Nat) (rest : List Nat) (pos : Nat) (ring : Nat → Nat),
      Coh data (mask + 1) pos ring →
      (∀ k, k < bytes.length → bytes.getD k 0 = data.getD (pos + k) 0) →
      ∃ ring2,
        copyLits mask bytes.length pos ring (bytes ++ rest) =
          (bytes, some (pos + bytes.length, ring2, rest)) ∧
        Coh data (mask + 1) (pos + bytes.length) ring2 := by
  intro bytes
  induction bytes with
  | nil =>
    intro rest pos ring hcoh _
    exact ⟨ring, rfl, hcoh⟩
  | cons x bs ih =>
    intro rest pos ring hcoh hbytes
    have hx : x = data.getD pos 0 := by
      have := hbytes 0 (by simp)
      simpa using this
    have hcoh2 := coh_write data (mask + 1) pos ring (by omega) hcoh x hx
    have hbytes2 : ∀ k, k < bs.length → bs.getD k 0 = data.getD (pos + 1 + k) 0 := by
      intro k hk
      have := hbytes (k + 1) (by simp; omega)
      simp only [List.getD_cons_succ] at this
      rw [this]
      congr 1
      omega
    obtain ⟨ring2, hrun, hcoh3⟩ := ih rest (pos + 1)
      (fun k => if k = pos % (mask + 1) then x else ring k) hcoh2 hbytes2
    have hlen : pos + 1 + bs.length = pos + (x :: bs).length := by
      simp only [List.length_cons]
      omega
    rw [hlen] at hrun hcoh3
    refine ⟨ring2, ?_, hcoh3⟩
    show copyLits mask (bs.length + 1) pos ring (x :: (bs ++ rest)) = _
    have hstep : copyLits mask (bs.length + 1) pos ring (x :: (bs ++ rest)) =
        (x :: (copyLits mask bs.length (pos + 1)
          (fun k => if k = pos % (mask + 1) then x else ring k) (bs ++ rest)).1,
         (copyLits mask bs.length (pos + 1)
          (fun k => if k = pos % (mask + 1) then x else ring k) (bs ++ rest)).2) := rfl
    rw [hstep, hrun]

theorem copyLits_short (mask : Nat) :
    ∀ (bytes : List Nat) (n pos : Nat) (ring : Nat → Nat),
      bytes.length < n →
      (copyLits mask n pos ring bytes).1 = bytes ∧
      (copyLits mask n pos ring bytes).2 = none := by
  intro bytes
  induction bytes with
  | nil =>
    intro n pos ring hn
    obtain ⟨m, rfl⟩ : ∃ m, n = m + 1 := ⟨n - 1, by omega⟩
    exact ⟨rfl, rfl⟩
  | cons x bs ih =>
    intro n pos ring hn
    obtain ⟨m, rfl⟩ : ∃ m, n = m + 1 := ⟨n - 1, by omega⟩
    obtain ⟨h1, h2⟩ := ih m (pos + 1)
      (fun k => if k = pos % (mask + 1) then x else ring k) (by simpa using hn)
    constructor
    · show (copyLits mask (m + 1) pos ring (x :: bs)).1 = x :: bs
      rw [copyLits]
      simp only []
      rw [h1]
    · show (copyLits mask (m + 1) pos ring (x :: bs)).2 = none
      rw [copyLits]
      simp only []
      rw [h2]

/-! ## Offset field round trip -/

theorem relOk_cases (c : Cfg) (h : c.relOkB = true) :
    c.offsetRel = none ∨ ∃ a, c.offsetRel = some a ∧
      ((c.bitsMoff = 8 ∧ a < 256) ∨ (c.bitsMoff = 16 ∧ a < 65536)) := by
  rcases hrel : c.offsetRel with _ | a
  · exact Or.inl rfl
  · right
    refine ⟨a, rfl, ?_⟩
    rw [Cfg.relOkB, hrel] at h
    simp only [Bool.or_eq_true, Bool.and_eq_true, beq_iff_eq, decide_eq_true_eq] at h
    exact h

theorem encOff_none (c : Cfg) (h : c.offsetRel = none) (pos mpos : Nat)
    (h1 : 1 ≤ mpos) (h2 : mpos ≤ 65536) : encOff c pos mpos = mpos - 1 := by
  simp only [encOff, h]
  omega

theorem encOff_some (c : Cfg) (a : Nat) (h : c.offsetRel = some a)
    (pos mpos : Nat) (h2 : mpos ≤ pos) :
    encOff c pos mpos = (pos + a - mpos) % 65536 := by
  simp only [encOff, h]
  omega

theorem maxOff_le_of_bits (c : Cfg) {b : Nat} (hb : c.bitsMoff ≤ b) :
    c.maxOff ≤ 2 ^ b :=
  Nat.pow_le_pow_right (by omega) hb

/-- Writing the offset field as code_match does and reading it back as
decode does recovers a window index congruent to pos - mpos modulo the
ring size. -/
theorem offset_roundtrip (c : Cfg) (hv : c.Valid) (pos mpos : Nat)
    (rest : List Nat) (hm1 : 1 ≤ mpos) (hmp : mpos ≤ pos)
    (hmo : mpos ≤ c.maxOff) :
    ∃ offD,
      readOff c (((if c.bitsMoff ≠ 0 then [encOff c pos mpos % 256] else []) ++
        (if 8 < c.bitsMoff then [(encOff c pos mpos / 256) % 256] else [])) ++
        rest) = some (offD, rest) ∧
      offD ≤ dmask c ∧
      srcOf c pos offD % (dmask c + 1) = (pos - mpos) % (dmask c + 1) := by
  obtain ⟨hb16, _, _, _, _, hex, hrel⟩ := hv
  rcases Nat.eq_zero_or_pos c.bitsMoff with hb0 | hbpos
  · -- bits_moff = 0: no offset bytes, window is the last byte
    have hmask : dmask c = 255 := by rw [dmask, if_neg (by omega)]
    have hobs : ((if c.bitsMoff ≠ 0 then [encOff c pos mpos % 256] else []) ++
        (if 8 < c.bitsMoff then [(encOff c pos mpos / 256) % 256] else [])) = [] := by
      rw [hb0]
      simp
    rw [hobs, List.nil_append]
    have hmo1 : mpos = 1 := by
      have h1 : c.maxOff = 1 := by simp [Cfg.maxOff, hb0]
      omega
    have hrd : readOff c rest = some (0, rest) := by
      simp [readOff, hb0]
    refine ⟨0, hrd, by rw [hmask]; omega, ?_⟩
    rcases relOk_cases c hrel with hnone | ⟨a, hsome, hcase⟩
    · simp only [srcOf, hnone, hmask, hmo1]
      omega
    · exfalso
      rcases hcase with ⟨h8, _⟩ | ⟨h16, _⟩ <;> omega
  · rcases Nat.lt_or_ge 8 c.bitsMoff with hb8 | hb8
    · -- two offset bytes, 16-bit window
      have hmask : dmask c = 65535 := by rw [dmask, if_pos hb8]
      have hmo16 : mpos ≤ 65536 :=
        le_trans hmo (by simpa using maxOff_le_of_bits c hb16)
      have hobs : ((if c.bitsMoff ≠ 0 then [encOff c pos mpos % 256] else []) ++
          (if 8 < c.bitsMoff then [(encOff c pos mpos / 256) % 256] else [])) =
          [encOff c pos mpos % 256, (encOff c pos mpos / 256) % 256] := by
        rw [if_pos (by omega), if_pos hb8]
        rfl
      have hrd : ∀ x y : Nat, readOff c (x :: y :: rest) =
          some (x + y * 256, rest) := by
        intro x y
        simp [readOff.eq_def, hb8, Nat.pos_iff_ne_zero.mp hbpos]
      rcases relOk_cases c hrel with hnone | ⟨a, hsome, hcase⟩
      · rw [hobs, encOff_none c hnone pos mpos hm1 hmo16]
        refine ⟨(mpos - 1) % 256 + ((mpos - 1) / 256) % 256 * 256, hrd _ _, ?_, ?_⟩
        · rw [hmask]; omega
        · simp only [srcOf, hnone, hmask]
          omega
      · have ha16 : a < 65536 := by
          rcases hcase with ⟨_, h⟩ | ⟨_, h⟩ <;> omega
        rw [hobs, encOff_some c a hsome pos mpos hmp]
        refine ⟨((pos + a - mpos) % 65536) % 256 +
          (((pos + a - mpos) % 65536) / 256) % 256 * 256, hrd _ _, ?_, ?_⟩
        · rw [hmask]; omega
        · simp only [srcOf, hsome, hmask]
          omega
    · -- one offset byte, 8-bit window
      have hmask : dmask c = 255 := by rw [dmask, if_neg (by omega)]
      have hmo8 : mpos ≤ 256 :=
        le_trans hmo (by simpa using maxOff_le_of_bits c hb8)
      have hobs : ((if c.bitsMoff ≠ 0 then [encOff c pos mpos % 256] else []) ++
          (if 8 < c.bitsMoff then [(encOff c pos mpos / 256) % 256] else [])) =
          [encOff c pos mpos % 256] := by
        rw [if_pos (by omega), if_neg (by omega : ¬ 8 < c.bitsMoff)]
        simp
      have hrd : ∀ x : Nat, readOff c (x :: rest) = some (x, rest) := by
        intro x
        simp [readOff.eq_def, Nat.pos_iff_ne_zero.mp hbpos,
          (by omega : ¬ 8 < c.bitsMoff)]
        intro h
        omega
      rcases relOk_cases c hrel with hnone | ⟨a, hsome, hcase⟩
      · rw [hobs, encOff_none c hnone pos mpos hm1 (by omega)]
        refine ⟨(mpos - 1) % 256, hrd _, by rw [hmask]; omega, ?_⟩
        simp only [srcOf, hnone, hmask]
        omega
      · have ha8 : a < 256 := by
          rcases hcase with ⟨_, h⟩ | ⟨h16, _⟩ <;> omega
        rw [hobs, encOff_some c a hsome pos mpos hmp]
        refine ⟨((pos + a - mpos) % 65536) % 256, hrd _, by rw [hmask]; omega, ?_⟩
        simp only [srcOf, hsome, hmask]
        omega

theorem copyMatch_spec (mask : Nat) (data : List Nat) (mpos : Nat)
    (hm1 : 1 ≤ mpos) (hmw : mpos ≤ mask + 1) :
    ∀ (n pos src : Nat) (ring : Nat → Nat),
      Coh data (mask + 1) pos ring →
      mpos ≤ pos →
      src % (mask + 1) = (pos - mpos) % (mask + 1) →
      (∀ j, j < n → data.getD (pos + j) 0 = data.getD (pos - mpos + j) 0) →
      pos + n ≤ data.length →
      ∃ ring2,
        copyMatch mask n pos src ring = ((data.drop pos).take n, pos + n, ring2) ∧
        Coh data (mask + 1) (pos + n) ring2 := by
  intro n
  induction n with
  | zero =>
    intro pos src ring hcoh _ _ _ _
    exact ⟨ring, by simp [copyMatch], hcoh⟩
  | succ n ih =>
    intro pos src ring hcoh hmp hsrc hmatch hlen
    have hxr : ring (src % (mask + 1)) = data.getD (pos - mpos) 0 := by
      rw [hsrc]
      exact hcoh (pos - mpos) (by omega) (by omega)
    have hx : ring (src % (mask + 1)) = data.getD pos 0 := by
      rw [hxr]
      have := hmatch 0 (by omega)
      simpa using this.symm
    have hcoh2 := coh_write data (mask + 1) pos ring (by omega) hcoh _ hx
    have hsrc2 : (src + 1) % (mask + 1) = (pos + 1 - mpos) % (mask + 1) := by
      have h1 : (src + 1) % (mask + 1) = ((pos - mpos) + 1) % (mask + 1) :=
        Nat.ModEq.add_right 1 hsrc
      rw [h1]
      congr 1
      omega
    have hmatch2 : ∀ j, j < n → data.getD (pos + 1 + j) 0 =
        data.getD (pos + 1 - mpos + j) 0 := by
      intro j hj
      have := hmatch (j + 1) (by omega)
      have e1 : pos + (j + 1) = pos + 1 + j := by omega
      have e2 : pos - mpos + (j + 1) = pos + 1 - mpos + j := by omega
      rw [e1, e2] at this
      exact this
    obtain ⟨ring2, hrun, hcoh3⟩ := ih (pos + 1) (src + 1)
      (fun k => if k = pos % (mask + 1) then ring (src % (mask + 1)) else ring k)
      hcoh2 (by omega) hsrc2 hmatch2 (by omega)
    have hlen : pos + 1 + n = pos + (n + 1) := by omega
    rw [hlen] at hrun hcoh3
    refine ⟨ring2, ?_, hcoh3⟩
    have hstep : copyMatch mask (n + 1) pos src ring =
        (ring (src % (mask + 1)) :: (copyMatch mask n (pos + 1) (src + 1)
          (fun k => if k = pos % (mask + 1) then ring (src % (mask + 1))
            else ring k)).1,
         (copyMatch mask n (pos + 1) (src + 1)
          (fun k => if k = pos % (mask + 1) then ring (src % (mask + 1))
            else ring k)).2) := rfl
    rw [hstep, hrun, drop_take_cons data pos n (by omega), hx]

/-! ## Small stream lemmas -/

theorem slice_map_mod (data : List Nat) (hb : ∀ b ∈ data, b < 256)
    (pos n : Nat) :
    ((data.drop pos).take n).map (· % 256) = (data.drop pos).take n := by
  have h : ∀ x ∈ (data.drop pos).take n, x % 256 = x := by
    intro x hx
    exact Nat.mod_eq_of_lt (hb x (List.mem_of_mem_drop (List.mem_of_mem_take hx)))
  calc ((data.drop pos).take n).map (· % 256) =
      ((data.drop pos).take n).map id := List.map_congr_left h
    _ = (data.drop pos).take n := List.map_id _

theorem slice_length (data : List Nat) (pos n : Nat)
    (h : pos + n ≤ data.length) : ((data.drop pos).take n).length = n := by
  rw [List.length_take, List.length_drop]
  omega

theorem maxOff_le_mask (c : Cfg) (hb16 : c.bitsMoff ≤ 16) :
    c.maxOff ≤ dmask c + 1 := by
  rw [dmask]
  split
  · have := maxOff_le_of_bits c hb16
    simpa using this
  · have := maxOff_le_of_bits c (by omega : c.bitsMoff ≤ 8)
    simpa using this

theorem getLen_consume (m : Nat) (inp : List Nat) (n : Nat) (rest : List Nat)
    (h : getLen m inp = some (n, rest)) : rest.length < inp.length := by
  cases inp with
  | nil => simp [getLen] at h
  | cons x r =>
    simp only [getLen] at h
    split at h
    · simp at h
      obtain ⟨_, h2⟩ := h
      subst h2
      simp
    · cases r with
      | nil =>
        simp at h
        obtain ⟨_, h2⟩ := h
        subst h2
        simp
      | cons y r2 =>
        simp at h
        obtain ⟨_, h2⟩ := h
        subst h2
        simp
        omega

theorem copyLits_tail (mask : Nat) :
    ∀ (n pos : Nat) (ring : Nat → Nat) (inp o : List Nat)
      (p2 : Nat) (r2 : Nat → Nat) (rest2 : List Nat),
      copyLits mask n pos ring inp = (o, some (p2, r2, rest2)) →
      rest2.length ≤ inp.length := by
  intro n
  induction n with
  | zero =>
    intro pos ring inp o p2 r2 rest2 h
    rw [copyLits] at h
    simp at h
    obtain ⟨_, _, _, h4⟩ := h
    subst h4
    exact le_refl _
  | succ n ih =>
    intro pos ring inp o p2 r2 rest2 h
    cases inp with
    | nil =>
      rw [copyLits] at h
      simp at h
    | cons x r =>
      have hstep : copyLits mask (n + 1) pos ring (x :: r) =
          (x :: (copyLits mask n (pos + 1)
            (fun k => if k = pos % (mask + 1) then x else ring k) r).1,
           (copyLits mask n (pos + 1)
            (fun k => if k = pos % (mask + 1) then x else ring k) r).2) := rfl
      rw [hstep] at h
      have h2 : (copyLits mask n (pos + 1)
          (fun k => if k = pos % (mask + 1) then x else ring k) r).2 =
          some (p2, r2, rest2) := by
        have := congrArg Prod.snd h
        simpa using this
      obtain ⟨o', ho'⟩ : ∃ o', (copyLits mask n (pos + 1)
          (fun k => if k = pos % (mask + 1) then x else ring k) r) =
          (o', some (p2, r2, rest2)) := ⟨_, Prod.ext rfl h2⟩
      have := ih (pos + 1) _ r o' p2 r2 rest2 ho'
      simp
      omega

theorem readOff_tail (c : Cfg) (inp : List Nat) (o : Nat) (rest : List Nat)
    (h : readOff c inp = some (o, rest)) : rest.length ≤ inp.length := by
  rw [readOff.eq_def] at h
  split at h
  · simp at h
    obtain ⟨_, h2⟩ := h
    subst h2
    exact le_refl _
  · cases inp with
    | nil => simp at h
    | cons x r =>
      simp only [] at h
      split at h
      · cases r with
        | nil => simp at h
        | cons y r2 =>
          simp at h
          obtain ⟨_, h2⟩ := h
          subst h2
          simp
          omega
      · simp at h
        obtain ⟨_, h2⟩ := h
        subst h2
        simp

/-! ## Decoder phase lemmas -/

theorem dec_eof (c : Cfg) (f : Nat) (ph : Bool) (pos : Nat) (ring : Nat → Nat) :
    decLoop c (f + 1) ph pos ring [] = ([], none) := by
  cases ph <;> rfl

theorem dec_lit0_step (c : Cfg) (pos : Nat) (ring : Nat → Nat)
    (rest : List Nat) (f : Nat) :
    decLoop c (f + 1) false pos ring (serBlk c (Blk.lit 0 []) ++ rest) =
      decLoop c f true pos ring rest := by
  have hser : serBlk c (Blk.lit 0 []) ++ rest = 0 :: rest := by
    rw [serBlk, lenHdr, if_neg (by omega)]
    rfl
  have hgl : getLen c.maxLlen (0 :: rest) = some (0, rest) := by
    simp [getLen]
  have h1 : decLoop c (f + 1) false pos ring (0 :: rest) =
      (match getLen c.maxLlen (0 :: rest) with
       | none => (([] : List Nat), (none : Option DErr))
       | some (n, rst) =>
         match copyLits (dmask c) n pos ring rst with
         | (o, none) => (o, some DErr.shortLit)
         | (o, some (pos2, ring2, rest2)) =>
           (o ++ (decLoop c f true pos2 ring2 rest2).1,
            (decLoop c f true pos2 ring2 rest2).2)) := rfl
  rw [hser, h1]
  simp only [hgl]
  have h2 : copyLits (dmask c) 0 pos ring rest = ([], some (pos, ring, rest)) := rfl
  rw [h2]
  rfl

theorem dec_mat0_step (c : Cfg) (hv : c.Valid) (pos : Nat) (ring : Nat → Nat)
    (rest : List Nat) (f : Nat) :
    decLoop c (f + 1) true pos ring (serBlk c (Blk.mat 0 0) ++ rest) =
      decLoop c f false pos ring rest := by
  obtain ⟨hb16, hmm1, hmm2, _, _, hex, _⟩ := hv
  have hhdr : lenHdr c.maxMlen 0 = [0] := by
    rw [lenHdr, if_neg (by omega)]
  have h1 : ∀ inp, decLoop c (f + 1) true pos ring inp =
      (match getLen c.maxMlen inp with
       | none => (([] : List Nat), (none : Option DErr))
       | some (n, rst) =>
         if c.zeroOffset ∨ n ≠ 0 then
           match readOff c rst with
           | none => ([], some DErr.shortOff)
           | some (off0, rest2) =>
             ((copyMatch (dmask c) n pos
                (srcOf c pos (if c.exorOffset then Nat.xor (dmask c) off0 else off0))
                ring).1 ++
              (decLoop c f false
                (copyMatch (dmask c) n pos
                  (srcOf c pos (if c.exorOffset then Nat.xor (dmask c) off0 else off0))
                  ring).2.1
                (copyMatch (dmask c) n pos
                  (srcOf c pos (if c.exorOffset then Nat.xor (dmask c) off0 else off0))
                  ring).2.2 rest2).1,
              (decLoop c f false
                (copyMatch (dmask c) n pos
                  (srcOf c pos (if c.exorOffset then Nat.xor (dmask c) off0 else off0))
                  ring).2.1
                (copyMatch (dmask c) n pos
                  (srcOf c pos (if c.exorOffset then Nat.xor (dmask c) off0 else off0))
                  ring).2.2 rest2).2)
         else decLoop c f false pos ring rst) := fun inp => rfl
  have hcm0 : ∀ src : Nat, copyMatch (dmask c) 0 pos src ring = ([], pos, ring) :=
    fun _ => rfl
  by_cases hz : c.zeroOffset
  · rcases Nat.eq_zero_or_pos c.bitsMoff with hb0 | hbpos
    · have hser : serBlk c (Blk.mat 0 0) ++ rest = 0 :: rest := by
        rw [serBlk, hhdr, if_pos (Or.inr hz), if_neg (by omega),
          if_neg (by omega : ¬ 8 < c.bitsMoff)]
        rfl
      have hro : readOff c rest = some (0, rest) := by
        simp [readOff, hb0]
      rw [hser, h1]
      have hgl : getLen c.maxMlen (0 :: rest) = some (0, rest) := by
        simp [getLen]
      simp only [hgl, hz, true_or, if_true, hro, hex, Bool.false_eq_true,
        if_false, hcm0, List.nil_append]
    · rcases Nat.lt_or_ge 8 c.bitsMoff with hb8 | hb8
      · have hser : serBlk c (Blk.mat 0 0) ++ rest = 0 :: 0 :: 0 :: rest := by
          rw [serBlk, hhdr, if_pos (Or.inr hz), if_pos (by omega), if_pos hb8]
          rfl
        have hro : readOff c (0 :: 0 :: rest) = some (0, rest) := by
          simp [readOff.eq_def, hb8, Nat.pos_iff_ne_zero.mp hbpos]
        rw [hser, h1]
        have hgl : getLen c.maxMlen (0 :: 0 :: 0 :: rest) =
            some (0, 0 :: 0 :: rest) := by
          simp [getLen]
        simp only [hgl, hz, true_or, if_true, hro, hex, Bool.false_eq_true,
          if_false, hcm0, List.nil_append]
      · have hser : serBlk c (Blk.mat 0 0) ++ rest = 0 :: 0 :: rest := by
          rw [serBlk, hhdr, if_pos (Or.inr hz), if_pos (by omega),
            if_neg (by omega : ¬ 8 < c.bitsMoff)]
          rfl
        have hro : readOff c (0 :: rest) = some (0, rest) := by
          simp only [readOff, if_neg (Nat.pos_iff_ne_zero.mp hbpos),
            if_neg (by omega : ¬ 8 < c.bitsMoff)]
        rw [hser, h1]
        have hgl : getLen c.maxMlen (0 :: 0 :: rest) = some (0, 0 :: rest) := by
          simp [getLen]
        simp only [hgl, hz, true_or, if_true, hro, hex, Bool.false_eq_true,
          if_false, hcm0, List.nil_append]
  · have hser : serBlk c (Blk.mat 0 0) ++ rest = 0 :: rest := by
      rw [serBlk, hhdr, if_neg (by simp [hz])]
      rfl
    rw [hser, h1]
    have hgl : getLen c.maxMlen (0 :: rest) = some (0, rest) := by
      simp [getLen]
    simp only [hgl, hz, Bool.false_eq_true, false_or, ne_eq,
      not_true_eq_false, if_false]

theorem slice_getD (data : List Nat) (pos n k : Nat) (hk : k < n) :
    ((data.drop pos).take n).getD k 0 = data.getD (pos + k) 0 := by
  rw [List.getD_eq_getElem?_getD, List.getD_eq_getElem?_getD,
    List.getElem?_take, List.getElem?_drop, if_pos hk]

/-- Decoding one literal block (positive length): the header reads back,
the literal bytes are copied to the output and the ring, and decoding
continues in the match phase. -/
theorem dec_lit_step (c : Cfg) (hv : c.Valid) (data : List Nat)
    (pos len : Nat) (ring : Nat → Nat) (rest : List Nat) (f : Nat)
    (hcoh : Coh data (dmask c + 1) pos ring)
    (_hlen1 : 1 ≤ len) (hlenM : len ≤ c.maxLlen)
    (hpl : pos + len ≤ data.length) :
    ∃ ring2,
      decLoop c (f + 1) false pos ring
        (lenHdr c.maxLlen len ++ ((data.drop pos).take len ++ rest)) =
        ((data.drop pos).take len ++
          (decLoop c f true (pos + len) ring2 rest).1,
         (decLoop c f true (pos + len) ring2 rest).2) ∧
      Coh data (dmask c + 1) (pos + len) ring2 := by
  obtain ⟨_, _, _, hll1, hll2, _, _⟩ := hv
  have hslen : ((data.drop pos).take len).length = len :=
    slice_length data pos len hpl
  have hbytes : ∀ k, k < ((data.drop pos).take len).length →
      ((data.drop pos).take len).getD k 0 = data.getD (pos + k) 0 := by
    intro k hk
    exact slice_getD data pos len k (by omega)
  obtain ⟨ring2, hrun, hcoh2⟩ :=
    copyLits_full (dmask c) data ((data.drop pos).take len) rest pos ring hcoh hbytes
  rw [hslen] at hrun hcoh2
  have hhdr := (getLen_lenHdr c.maxLlen len ((data.drop pos).take len ++ rest)
    hlenM hll2).1
  have h1 : decLoop c (f + 1) false pos ring
      (lenHdr c.maxLlen len ++ ((data.drop pos).take len ++ rest)) =
      (match getLen c.maxLlen
          (lenHdr c.maxLlen len ++ ((data.drop pos).take len ++ rest)) with
       | none => (([] : List Nat), (none : Option DErr))
       | some (n, rst) =>
         match copyLits (dmask c) n pos ring rst with
         | (o, none) => (o, some DErr.shortLit)
         | (o, some (pos2, ring2, rest2)) =>
           (o ++ (decLoop c f true pos2 ring2 rest2).1,
            (decLoop c f true pos2 ring2 rest2).2)) := rfl
  refine ⟨ring2, ?_, hcoh2⟩
  rw [h1]
  simp only [hhdr, hrun]

/-- Decoding one match block (positive length): the header and offset
field read back, the matched bytes are replayed out of the ring, and
decoding continues in the literal phase. -/
theorem dec_mat_step (c : Cfg) (hv : c.Valid) (data : List Nat)
    (pos len mpos : Nat) (ring : Nat → Nat) (rest : List Nat) (f : Nat)
    (hcoh : Coh data (dmask c + 1) pos ring)
    (hlen1 : 1 ≤ len) (hlenM : len ≤ c.maxMlen)
    (hpl : pos + len ≤ data.length)
    (hm1 : 1 ≤ mpos) (hmp : mpos ≤ pos) (hmo : mpos ≤ c.maxOff)
    (hmatch : ∀ j, j < len →
      data.getD (pos + j) 0 = data.getD (pos - mpos + j) 0) :
    ∃ ring2,
      decLoop c (f + 1) true pos ring
        (serBlk c (Blk.mat len (encOff c pos mpos)) ++ rest) =
        ((data.drop pos).take len ++
          (decLoop c f false (pos + len) ring2 rest).1,
         (decLoop c f false (pos + len) ring2 rest).2) ∧
      Coh data (dmask c + 1) (pos + len) ring2 := by
  have hb16 := hv.1
  have hmm2 := hv.2.2.1
  have hex := hv.2.2.2.2.2.1
  have hser : serBlk c (Blk.mat len (encOff c pos mpos)) ++ rest =
      lenHdr c.maxMlen len ++
        (((if c.bitsMoff ≠ 0 then [encOff c pos mpos % 256] else []) ++
          (if 8 < c.bitsMoff then [(encOff c pos mpos / 256) % 256] else [])) ++
          rest) := by
    rw [serBlk, if_pos (Or.inl (by omega))]
    simp [List.append_assoc]
  obtain ⟨offD, hro, hoffD, hsrc⟩ :=
    offset_roundtrip c hv pos mpos rest hm1 hmp hmo
  have hhdr := (getLen_lenHdr c.maxMlen len
    ((((if c.bitsMoff ≠ 0 then [encOff c pos mpos % 256] else []) ++
      (if 8 < c.bitsMoff then [(encOff c pos mpos / 256) % 256] else []))) ++
      rest) hlenM hmm2).1
  obtain ⟨ring2, hcm, hcoh2⟩ := copyMatch_spec (dmask c) data mpos hm1
    (le_trans hmo (maxOff_le_mask c hb16)) len pos (srcOf c pos offD) ring
    hcoh hmp hsrc hmatch hpl
  have h1 : ∀ inp, decLoop c (f + 1) true pos ring inp =
      (match getLen c.maxMlen inp with
       | none => (([] : List Nat), (none : Option DErr))
       | some (n, rst) =>
         if c.zeroOffset ∨ n ≠ 0 then
           match readOff c rst with
           | none => ([], some DErr.shortOff)
           | some (off0, rest2) =>
             ((copyMatch (dmask c) n pos
                (srcOf c pos (if c.exorOffset then Nat.xor (dmask c) off0 else off0))
                ring).1 ++
              (decLoop c f false
                (copyMatch (dmask c) n pos
                  (srcOf c pos (if c.exorOffset then Nat.xor (dmask c) off0 else off0))
                  ring).2.1
                (copyMatch (dmask c) n pos
                  (srcOf c pos (if c.exorOffset then Nat.xor (dmask c) off0 else off0))
                  ring).2.2 rest2).1,
              (decLoop c f false
                (copyMatch (dmask c) n pos
                  (srcOf c pos (if c.exorOffset then Nat.xor (dmask c) off0 else off0))
                  ring).2.1
                (copyMatch (dmask c) n pos
                  (srcOf c pos (if c.exorOffset then Nat.xor (dmask c) off0 else off0))
                  ring).2.2 rest2).2)
         else decLoop c f false pos ring rst) := fun inp => rfl
  refine ⟨ring2, ?_, hcoh2⟩
  rw [hser, h1]
  simp only [hhdr]
  rw [if_pos (Or.inr (by omega : len ≠ 0))]
  simp only [hro, hex, Bool.false_eq_true, if_false, hcm]

/-- Fuel irrelevance for the decode loop: any fuel beyond the input
length gives the same result, because every C while-iteration consumes
at least one input byte. -/
theorem decLoop_fuel (c : Cfg) :
    ∀ (N : Nat) (inp : List Nat), inp.length ≤ N →
      ∀ (f g : Nat) (ph : Bool) (pos : Nat) (ring : Nat → Nat),
        inp.length < f → inp.length < g →
        decLoop c f ph pos ring inp = decLoop c g ph pos ring inp := by
  intro N
  induction N with
  | zero =>
    intro inp hlen f g ph pos ring hf hg
    have : inp = [] := List.length_eq_zero.mp (by omega)
    subst this
    obtain ⟨f', rfl⟩ : ∃ f', f = f' + 1 := ⟨f - 1, by omega⟩
    obtain ⟨g', rfl⟩ : ∃ g', g = g' + 1 := ⟨g - 1, by omega⟩
    rw [dec_eof, dec_eof]
  | succ N ih =>
    intro inp hlen f g ph pos ring hf hg
    obtain ⟨f', rfl⟩ : ∃ f', f = f' + 1 := ⟨f - 1, by omega⟩
    obtain ⟨g', rfl⟩ : ∃ g', g = g' + 1 := ⟨g - 1, by omega⟩
    cases ph
    · have hU : ∀ k : Nat, decLoop c (k + 1) false pos ring inp =
          (match getLen c.maxLlen inp with
           | none => (([] : List Nat), (none : Option DErr))
           | some (n, rst) =>
             match copyLits (dmask c) n pos ring rst with
             | (o, none) => (o, some DErr.shortLit)
             | (o, some (pos2, ring2, rest2)) =>
               (o ++ (decLoop c k true pos2 ring2 rest2).1,
                (decLoop c k true pos2 ring2 rest2).2)) := fun k => rfl
      rw [hU f', hU g']
      rcases hgl : getLen c.maxLlen inp with _ | ⟨n, rst⟩
      · rfl
      · simp only []
        rcases hcl : copyLits (dmask c) n pos ring rst with ⟨o, oo⟩
        rcases oo with _ | ⟨p2, r2, rest2⟩
        · rfl
        · simp only []
          have h2 : rest2.length ≤ rst.length :=
            copyLits_tail (dmask c) n pos ring rst o p2 r2 rest2 hcl
          have h3 : rst.length < inp.length := getLen_consume _ _ _ _ hgl
          rw [ih rest2 (by omega) f' g' true p2 r2 (by omega) (by omega)]
    · have hU : ∀ k : Nat, decLoop c (k + 1) true pos ring inp =
          (match getLen c.maxMlen inp with
           | none => (([] : List Nat), (none : Option DErr))
           | some (n, rst) =>
             if c.zeroOffset ∨ n ≠ 0 then
               match readOff c rst with
               | none => ([], some DErr.shortOff)
               | some (off0, rest2) =>
                 ((copyMatch (dmask c) n pos
                    (srcOf c pos
                      (if c.exorOffset then Nat.xor (dmask c) off0 else off0))
                    ring).1 ++
                  (decLoop c k false
                    (copyMatch (dmask c) n pos
                      (srcOf c pos
                        (if c.exorOffset then Nat.xor (dmask c) off0 else off0))
                      ring).2.1
                    (copyMatch (dmask c) n pos
                      (srcOf c pos
                        (if c.exorOffset then Nat.xor (dmask c) off0 else off0))
                      ring).2.2 rest2).1,
                  (decLoop c k false
                    (copyMatch (dmask c) n pos
                      (srcOf c pos
                        (if c.exorOffset then Nat.xor (dmask c) off0 else off0))
                      ring).2.1
                    (copyMatch (dmask c) n pos
                      (srcOf c pos
                        (if c.exorOffset then Nat.xor (dmask c) off0 else off0))
                      ring).2.2 rest2).2)
             else decLoop c k false pos ring rst) := fun k => rfl
      rw [hU f', hU g']
      rcases hgl : getLen c.maxMlen inp with _ | ⟨n, rst⟩
      · rfl
      · simp only []
        have h3 : rst.length < inp.length := getLen_consume _ _ _ _ hgl
        by_cases hzn : c.zeroOffset ∨ n ≠ 0
        · rw [if_pos hzn, if_pos hzn]
          rcases hro : readOff c rst with _ | ⟨off0, rest2⟩
          · rfl
          · simp only []
            have h2 : rest2.length ≤ rst.length :=
              readOff_tail c rst off0 rest2 hro
            rw [ih rest2 (by omega) f' g' false _ _ (by omega) (by omega)]
        · rw [if_neg hzn, if_neg hzn,
            ih rst (by omega) f' g' false pos ring (by omega) (by omega)]

/-! ## The decode simulation of the emitter walk -/

theorem lenHdr_len (m l : Nat) : 1 ≤ (lenHdr m l).length := by
  rw [lenHdr]
  split <;> simp

theorem serBlk_len_pos (c : Cfg) (b : Blk) : 1 ≤ (serBlk c b).length := by
  cases b with
  | lit len bs =>
    rw [serBlk]
    have := lenHdr_len c.maxLlen len
    simp
    omega
  | mat len off =>
    rw [serBlk]
    have := lenHdr_len c.maxMlen len
    simp
    omega

theorem drop_take_drop (data : List Nat) (pos len : Nat) :
    (data.drop pos).take len ++ data.drop (pos + len) = data.drop pos := by
  have h1 : data.drop (pos + len) = (data.drop pos).drop len := by
    rw [List.drop_drop]
  rw [h1, List.take_append_drop]

/-- One walk step preserves the simulation; by induction the whole walk
does: decoding the serialised walk output (followed by any tail) from a
coherent decoder state replays exactly the remaining data bytes and then
continues on the tail from a coherent state at the end of the data. -/
theorem walk_sim (c : Cfg) (data : List Nat) (hv : c.Valid)
    (hcap : data.length ≤ 131072) (hb : ∀ b ∈ data, b < 256) :
    ∀ (fw pos : Nat) (inLit : Bool) (ring : Nat → Nat) (tail : List Nat)
      (df : Nat),
      pos ≤ data.length → data.length ≤ pos + fw →
      Coh data (dmask c + 1) pos ring →
      (((lzWalk c data (cells c data) fw pos inLit).map (serBlk c)).flatten ++
        tail).length < df →
      ∃ (ring2 : Nat → Nat) (df2 : Nat) (ph2 : Bool),
        tail.length < df2 ∧
        Coh data (dmask c + 1) data.length ring2 ∧
        decLoop c df inLit pos ring
          (((lzWalk c data (cells c data) fw pos inLit).map (serBlk c)).flatten ++
            tail) =
          (data.drop pos ++ (decLoop c df2 ph2 data.length ring2 tail).1,
           (decLoop c df2 ph2 data.length ring2 tail).2) := by
  obtain ⟨hb16, hmm1, hmm2, hll1, hll2, hex, hrel⟩ := hv
  intro fw
  induction fw with
  | zero =>
    intro pos inLit ring tail df hpos hfw hcoh hfuel
    have hpe : pos = data.length := by omega
    subst hpe
    refine ⟨ring, df, inLit, by simpa [lzWalk] using hfuel, hcoh, ?_⟩
    rw [List.drop_length]
    simp [lzWalk]
  | succ fw ih =>
    intro pos inLit ring tail df hpos hfw hcoh hfuel
    by_cases hplt : pos < data.length
    · -- one emission step
      have hcell := cellAt_inv c data
        ⟨hb16, hmm1, hmm2, hll1, hll2, hex, hrel⟩ hcap
        (data.length - pos) (by omega)
      rw [(by omega : data.length - (data.length - pos) = pos)] at hcell
      rw [← cells_getD c data pos (by omega)] at hcell
      obtain ⟨hc1, hc2, hc3, hc4, hc5, hc6⟩ := hcell
      rw [lzWalk, if_pos hplt] at hfuel ⊢
      by_cases hbr : ((cells c data).getD pos sentSt).lbits +
          (if inLit then zmc c else 0) ≤ ((cells c data).getD pos sentSt).mbits
      · -- literal branch
        rw [if_pos hbr] at hfuel ⊢
        set cur := (cells c data).getD pos sentSt with hcur
        have hlen1 : 1 ≤ min cur.llen c.maxLlen := by
          have := hc3 hplt
          omega
        have hmax : max (min cur.llen c.maxLlen) 1 = min cur.llen c.maxLlen :=
          Nat.max_eq_left hlen1
        set len := min cur.llen c.maxLlen with hlendef
        have hpl : pos + len ≤ data.length := by omega
        have hlenM : len ≤ c.maxLlen := by omega
        -- we cannot erase the byte-mod map without byte-valid data; the
        -- literal bytes emitted are the data bytes reduced mod 256, and
        -- the decoder stores and emits them unchanged, so the byte-valid
        -- hypothesis enters through slice_map_mod at the top level.
        simp only [hmax] at hfuel ⊢
        have hvv : c.Valid := ⟨hb16, hmm1, hmm2, hll1, hll2, hex, hrel⟩
        have hser : serBlk c (Blk.lit len ((data.drop pos).take len)) =
            lenHdr c.maxLlen len ++ (data.drop pos).take len := by
          rw [serBlk, slice_map_mod data hb pos len]
        have hd1 := lenHdr_len c.maxLlen len
        cases inLit with
        | false =>
          simp only [Bool.false_eq_true, if_false, List.nil_append,
            List.map_cons, List.flatten_cons, hser, List.append_assoc]
            at hfuel ⊢
          obtain ⟨f1, rfl⟩ : ∃ f1, df = f1 + 1 := ⟨df - 1, by omega⟩
          obtain ⟨ring2, hrun, hcoh2⟩ := dec_lit_step c hvv data pos len ring
            (((lzWalk c data (cells c data) fw (pos + len) true).map
              (serBlk c)).flatten ++ tail) f1 hcoh hlen1 hlenM hpl
          simp only [List.length_append] at hfuel
          obtain ⟨ring3, df2, ph2, htl, hcoh3, hrun3⟩ :=
            ih (pos + len) true ring2 tail f1 (by omega) (by omega) hcoh2
              (by simp only [List.length_append]; omega)
          refine ⟨ring3, df2, ph2, htl, hcoh3, ?_⟩
          rw [hrun]
          simp only [hrun3]
          rw [← List.append_assoc, drop_take_drop]
        | true =>
          simp only [if_true, List.singleton_append, List.map_cons,
            List.flatten_cons, hser, List.append_assoc] at hfuel ⊢
          have hm0 := serBlk_len_pos c (Blk.mat 0 0)
          simp only [List.length_append] at hfuel
          obtain ⟨f3, rfl⟩ : ∃ f3, df = f3 + 1 + 1 := ⟨df - 2, by omega⟩
          rw [dec_mat0_step c hvv pos ring _ (f3 + 1)]
          obtain ⟨ring2, hrun, hcoh2⟩ := dec_lit_step c hvv data pos len ring
            (((lzWalk c data (cells c data) fw (pos + len) true).map
              (serBlk c)).flatten ++ tail) f3 hcoh hlen1 hlenM hpl
          obtain ⟨ring3, df2, ph2, htl, hcoh3, hrun3⟩ :=
            ih (pos + len) true ring2 tail f3 (by omega) (by omega) hcoh2
              (by simp only [List.length_append]; omega)
          refine ⟨ring3, df2, ph2, htl, hcoh3, ?_⟩
          rw [hrun]
          simp only [hrun3]
          rw [← List.append_assoc, drop_take_drop]
      · -- match branch
        rw [if_neg hbr] at hfuel ⊢
        set cur := (cells c data).getD pos sentSt with hcur
        have hvv : c.Valid := ⟨hb16, hmm1, hmm2, hll1, hll2, hex, hrel⟩
        have h5 : (if inLit = true then zmc c else 0) ≤ (24 : Int) := by
          cases inLit
          · simp only [Bool.false_eq_true, if_false]
            norm_num
          · simpa using zmc_ub c
        have hfin : cur.mbits < INFC := by
          have h1 := not_le.mp hbr
          have h4 : ((data.length - pos : Nat) : Int) ≤ 131072 := by
            have h6 : data.length - pos ≤ 131072 := by omega
            exact_mod_cast h6
          have hI : INFC = 8388607 := rfl
          rw [hI]
          omega
        obtain ⟨hm1, hm2, hm3, hm4, hm5, hm6, hm7⟩ := hc6 hfin
        have hmaxm : cur.mlen ⊔ 1 = cur.mlen := Nat.max_eq_left hm1
        simp only [hmaxm] at hfuel ⊢
        cases inLit with
        | false =>
          simp only [Bool.false_eq_true, if_false, List.singleton_append,
            List.map_cons, List.flatten_cons, List.append_assoc] at hfuel ⊢
          have hsm := serBlk_len_pos c (Blk.mat cur.mlen (encOff c pos cur.mpos))
          have hsl := serBlk_len_pos c (Blk.lit 0 [])
          simp only [List.length_append] at hfuel
          obtain ⟨f3, rfl⟩ : ∃ f3, df = f3 + 1 + 1 := ⟨df - 2, by omega⟩
          rw [dec_lit0_step c pos ring _ (f3 + 1)]
          obtain ⟨ring2, hrun, hcoh2⟩ := dec_mat_step c hvv data pos cur.mlen
            cur.mpos ring
            (((lzWalk c data (cells c data) fw (pos + cur.mlen) false).map
              (serBlk c)).flatten ++ tail) f3 hcoh hm1 hm3 hm2 hm4 hm5 hm6 hm7
          obtain ⟨ring3, df2, ph2, htl, hcoh3, hrun3⟩ :=
            ih (pos + cur.mlen) false ring2 tail f3 (by omega) (by omega) hcoh2
              (by simp only [List.length_append]; omega)
          refine ⟨ring3, df2, ph2, htl, hcoh3, ?_⟩
          rw [hrun]
          simp only [hrun3]
          rw [← List.append_assoc, drop_take_drop]
        | true =>
          simp only [if_true, List.nil_append, List.map_cons, List.flatten_cons,
            List.append_assoc] at hfuel ⊢
          have hsm := serBlk_len_pos c (Blk.mat cur.mlen (encOff c pos cur.mpos))
          simp only [List.length_append] at hfuel
          obtain ⟨f1, rfl⟩ : ∃ f1, df = f1 + 1 := ⟨df - 1, by omega⟩
          obtain ⟨ring2, hrun, hcoh2⟩ := dec_mat_step c hvv data pos cur.mlen
            cur.mpos ring
            (((lzWalk c data (cells c data) fw (pos + cur.mlen) false).map
              (serBlk c)).flatten ++ tail) f1 hcoh hm1 hm3 hm2 hm4 hm5 hm6 hm7
          obtain ⟨ring3, df2, ph2, htl, hcoh3, hrun3⟩ :=
            ih (pos + cur.mlen) false ring2 tail f1 (by omega) (by omega) hcoh2
              (by simp only [List.length_append]; omega)
          refine ⟨ring3, df2, ph2, htl, hcoh3, ?_⟩
          rw [hrun]
          simp only [hrun3]
          rw [← List.append_assoc, drop_take_drop]
    · have hpe : pos = data.length := by omega
      subst hpe
      rw [lzWalk, if_neg (by omega)]
      refine ⟨ring, df, inLit, ?_, hcoh, ?_⟩
      · rw [lzWalk, if_neg (by omega)] at hfuel
        simpa using hfuel
      · rw [List.drop_length]
        simp

/-- Decoding the serialised encoder stream from the initial decoder state
reproduces the data exactly, with no error report: walk_sim at position
0 with the all-zero ring and an empty tail, closed off by dec_eof. -/
theorem roundtrip_aux (c : Cfg) (hv : c.Valid) (data : List Nat)
    (hcap : data.length ≤ 131072) (hb : ∀ b ∈ data, b < 256) :
    decodeRun c (lzEncode c data) = (data, none) := by
  obtain ⟨ring2, df2, ph2, htl, hcoh2, hrun⟩ :=
    walk_sim c data hv hcap hb data.length 0 false (fun _ => 0) []
      ((lzEncode c data).length + 1) (Nat.zero_le _) (by omega)
      (fun j hj _ => absurd hj (Nat.not_lt_zero j))
      (by rw [List.append_nil, lzEncode]; exact Nat.lt_succ_self _)
  have h0 : 0 < df2 := by simpa using htl
  obtain ⟨g, rfl⟩ : ∃ g, df2 = g + 1 := ⟨df2 - 1, by omega⟩
  simp only [List.append_nil, dec_eof, List.drop_zero] at hrun
  rw [decodeRun]
  exact hrun

/-- Claim C1: for every valid configuration and every byte-valued input
within the 128 KiB cap, decoding the encoder output with the same
configuration reproduces the input exactly (with no error report):
D(cfg, E(cfg, data)) = data. -/
theorem c1_round_trip (c : Cfg) (hv : c.Valid) (data : List Nat)
    (hcap : data.length ≤ 131072) (hb : ∀ b ∈ data, b < 256) :
    decodeRun c (lzEncode c data) = (data, none) :=
  roundtrip_aux c hv data hcap hb

/-- Witness for c1_round_trip at the default configuration and the input
"ABAB" (whose encoding contains both a literal and a match block). -/
theorem c1_round_trip_witness :
    dfltCfg.Valid ∧ ([65, 66, 65, 66] : List Nat).length ≤ 131072 ∧
    (∀ b ∈ ([65, 66, 65, 66] : List Nat), b < 256) ∧
    decodeRun dfltCfg (lzEncode dfltCfg [65, 66, 65, 66]) =
      ([65, 66, 65, 66], none) :=
  ⟨by decide, by decide, by decide,
   c1_round_trip dfltCfg (by decide) [65, 66, 65, 66] (by decide) (by decide)⟩

/-- Claim C6 counterexample: a 131073-byte input exceeds the 128 KiB
allocator cap, yet the encoder main does not reject it: fread caps the
read at 128*1024 bytes and encoding proceeds on that prefix, so the
oversized input is partially processed (the decode of the output is the
truncated prefix, not the input and not a failure). -/
theorem c6_oversized_cex :
    lzEncodeMain dfltCfg (List.replicate 131073 7) =
      lzEncode dfltCfg (List.replicate 131072 7) ∧
    decodeRun dfltCfg (lzEncodeMain dfltCfg (List.replicate 131073 7)) =
      (List.replicate 131072 7, none) ∧
    List.replicate 131073 (7 : Nat) ≠ List.replicate 131072 7 := by
  have h1 : lzEncodeMain dfltCfg (List.replicate 131073 7) =
      lzEncode dfltCfg (List.replicate 131072 7) := by
    rw [lzEncodeMain, List.take_replicate,
      (by omega : 131072 ⊓ 131073 = 131072)]
  refine ⟨h1, ?_, ?_⟩
  · rw [h1]
    exact roundtrip_aux dfltCfg (by decide) _
      (by rw [List.length_replicate])
      (fun b hb => by rw [List.eq_of_mem_replicate hb]; norm_num)
  · intro h
    have h2 := congrArg List.length h
    rw [List.length_replicate, List.length_replicate] at h2
    omega

/-- Claim C6 amended: the encoder main is not a fatal error on oversized
input; it reads at most 128*1024 bytes (fread caps the read) and encodes
exactly that prefix, which decodes back to input.take 131072. -/
theorem c6_oversized_amended (c : Cfg) (hv : c.Valid) (input : List Nat)
    (hb : ∀ b ∈ input, b < 256) :
    decodeRun c (lzEncodeMain c input) = (input.take 131072, none) := by
  rw [lzEncodeMain]
  exact roundtrip_aux c hv (input.take 131072)
    (by rw [List.length_take]; omega)
    (fun b hbt => hb b (List.mem_of_mem_take hbt))

/-! ## Truncation lemmas -/

theorem lzWalk_nil (c : Cfg) (data : List Nat) (cs : List St)
    (fw pos : Nat) (inLit : Bool) (h : ¬ pos < data.length) :
    lzWalk c data cs fw pos inLit = [] := by
  cases fw with
  | zero => rfl
  | succ f => rw [lzWalk, if_neg h]

theorem flatten_ser_cons_pos (c : Cfg) (s r : List Blk) (b : Blk) :
    1 ≤ (((s ++ b :: r).map (serBlk c)).flatten).length := by
  have hs := serBlk_len_pos c b
  simp only [List.map_append, List.flatten_append, List.map_cons,
    List.flatten_cons, List.length_append]
  omega

theorem walk_flatten_pos (c : Cfg) (data : List Nat) (cs : List St)
    (fw pos : Nat) (inLit : Bool) (h : pos < data.length)
    (h2 : data.length ≤ pos + fw) :
    1 ≤ (((lzWalk c data cs fw pos inLit).map (serBlk c)).flatten).length := by
  obtain ⟨g, rfl⟩ : ∃ g, fw = g + 1 := ⟨fw - 1, by omega⟩
  rw [lzWalk, if_pos h]
  by_cases hbr : (cs.getD pos sentSt).lbits +
      (if inLit then zmc c else 0) ≤ (cs.getD pos sentSt).mbits
  · rw [if_pos hbr]
    exact flatten_ser_cons_pos c _ _ _
  · rw [if_neg hbr]
    exact flatten_ser_cons_pos c _ _ _

theorem dropLast_slice (data : List Nat) (pos len : Nat)
    (h : pos + len ≤ data.length) :
    ((data.drop pos).take len).dropLast = (data.drop pos).take (len - 1) := by
  rw [List.dropLast_eq_take, slice_length data pos len h, List.take_take]
  congr 1
  omega

theorem take_add_slice (data : List Nat) (pos len q : Nat) :
    (data.drop pos).take len ++ (data.drop (pos + len)).take q =
      (data.drop pos).take (len + q) := by
  rw [List.take_add (data.drop pos) len q, List.drop_drop]

theorem readOff_short (c : Cfg) (hbm : 1 ≤ c.bitsMoff) :
    readOff c [] = none ∧ (8 < c.bitsMoff → ∀ x, readOff c [x] = none) := by
  constructor
  · simp [readOff, Nat.pos_iff_ne_zero.mp hbm]
  · intro h8 x
    simp [readOff.eq_def, Nat.pos_iff_ne_zero.mp hbm, h8]

/-- A final literal block cut short: the decoder emits the literal bytes
that are present and reports the short-literal error. -/
theorem dec_lit_short (c : Cfg) (hll2 : c.maxLlen ≤ 32895)
    (len : Nat) (bytes : List Nat) (pos : Nat) (ring : Nat → Nat) (f : Nat)
    (hlenM : len ≤ c.maxLlen) (hlt : bytes.length < len) :
    decLoop c (f + 1) false pos ring (lenHdr c.maxLlen len ++ bytes) =
      (bytes, some DErr.shortLit) := by
  have hhdr := (getLen_lenHdr c.maxLlen len bytes hlenM hll2).1
  have hcl : copyLits (dmask c) len pos ring bytes = (bytes, none) := by
    obtain ⟨a, b⟩ := copyLits_short (dmask c) bytes len pos ring hlt
    exact Prod.ext a b
  have h1 : decLoop c (f + 1) false pos ring (lenHdr c.maxLlen len ++ bytes) =
      (match getLen c.maxLlen (lenHdr c.maxLlen len ++ bytes) with
       | none => (([] : List Nat), (none : Option DErr))
       | some (n, rst) =>
         match copyLits (dmask c) n pos ring rst with
         | (o, none) => (o, some DErr.shortLit)
         | (o, some (pos2, ring2, rest2)) =>
           (o ++ (decLoop c f true pos2 ring2 rest2).1,
            (decLoop c f true pos2 ring2 rest2).2)) := rfl
  rw [h1]
  simp only [hhdr, hcl]

/-- A final match block cut one byte short (bits_moff ≥ 1, so the block
ends in offset bytes): the decoder reads the length field back, comes up
short on the offset and reports the short-offset error with nothing
emitted. -/
theorem dec_mat_short (c : Cfg) (hbm : 1 ≤ c.bitsMoff)
    (hmm2 : c.maxMlen ≤ 32895) (len off : Nat) (pos : Nat)
    (ring : Nat → Nat) (f : Nat) (hlen1 : 1 ≤ len) (hlenM : len ≤ c.maxMlen) :
    decLoop c (f + 1) true pos ring ((serBlk c (Blk.mat len off)).dropLast) =
      ([], some DErr.shortOff) := by
  have hne : c.bitsMoff ≠ 0 := by omega
  have hser : serBlk c (Blk.mat len off) =
      lenHdr c.maxMlen len ++
        ((if c.bitsMoff ≠ 0 then [off % 256] else []) ++
         (if 8 < c.bitsMoff then [(off / 256) % 256] else [])) := by
    rw [serBlk, if_pos (Or.inl (by omega))]
  have h1 : ∀ inp, decLoop c (f + 1) true pos ring inp =
      (match getLen c.maxMlen inp with
       | none => (([] : List Nat), (none : Option DErr))
       | some (n, rst) =>
         if c.zeroOffset ∨ n ≠ 0 then
           match readOff c rst with
           | none => ([], some DErr.shortOff)
           | some (off0, rest2) =>
             ((copyMatch (dmask c) n pos
                (srcOf c pos (if c.exorOffset then Nat.xor (dmask c) off0 else off0))
                ring).1 ++
              (decLoop c f false
                (copyMatch (dmask c) n pos
                  (srcOf c pos (if c.exorOffset then Nat.xor (dmask c) off0 else off0))
                  ring).2.1
                (copyMatch (dmask c) n pos
                  (srcOf c pos (if c.exorOffset then Nat.xor (dmask c) off0 else off0))
                  ring).2.2 rest2).1,
              (decLoop c f false
                (copyMatch (dmask c) n pos
                  (srcOf c pos (if c.exorOffset then Nat.xor (dmask c) off0 else off0))
                  ring).2.1
                (copyMatch (dmask c) n pos
                  (srcOf c pos (if c.exorOffset then Nat.xor (dmask c) off0 else off0))
                  ring).2.2 rest2).2)
         else decLoop c f false pos ring rst) := fun inp => rfl
  by_cases h8 : 8 < c.bitsMoff
  · have hoffB : ((if c.bitsMoff ≠ 0 then [off % 256] else ([] : List Nat)) ++
        (if 8 < c.bitsMoff then [(off / 256) % 256] else [])) =
        [off % 256, (off / 256) % 256] := by
      rw [if_pos hne, if_pos h8]
      rfl
    have hdl : (serBlk c (Blk.mat len off)).dropLast =
        lenHdr c.maxMlen len ++ [off % 256] := by
      rw [hser, hoffB, List.dropLast_append_of_ne_nil _ (by simp)]
      rfl
    have hhdr := (getLen_lenHdr c.maxMlen len [off % 256] hlenM hmm2).1
    have hro := (readOff_short c hbm).2 h8 (off % 256)
    rw [hdl, h1]
    simp only [hhdr]
    rw [if_pos (Or.inr (by omega : len ≠ 0))]
    simp only [hro]
  · have hoffB : ((if c.bitsMoff ≠ 0 then [off % 256] else ([] : List Nat)) ++
        (if 8 < c.bitsMoff then [(off / 256) % 256] else [])) =
        [off % 256] := by
      rw [if_pos hne, if_neg h8]
      rfl
    have hdl : (serBlk c (Blk.mat len off)).dropLast =
        lenHdr c.maxMlen len ++ ([] : List Nat) := by
      rw [hser, hoffB, List.dropLast_append_of_ne_nil _ (by simp)]
      rfl
    have hhdr := (getLen_lenHdr c.maxMlen len [] hlenM hmm2).1
    have hro := (readOff_short c hbm).1
    rw [hdl, h1]
    simp only [hhdr]
    rw [if_pos (Or.inr (by omega : len ≠ 0))]
    simp only [hro]

/-- Decoding the serialised walk output with its last byte removed, from a
coherent decoder state (bits_moff ≥ 1, so every match block ends in
offset bytes): the decoder emits a prefix of the remaining data and
reports one of the two short-file errors. -/
theorem walk_trunc (c : Cfg) (data : List Nat) (hv : c.Valid)
    (hbm : 1 ≤ c.bitsMoff) (hcap : data.length ≤ 131072)
    (hb : ∀ b ∈ data, b < 256) :
    ∀ (fw pos : Nat) (inLit : Bool) (ring : Nat → Nat) (df : Nat),
      pos < data.length → data.length ≤ pos + fw →
      Coh data (dmask c + 1) pos ring →
      ((((lzWalk c data (cells c data) fw pos inLit).map
        (serBlk c)).flatten).dropLast).length < df →
      ∃ (q : Nat) (e : DErr),
        decLoop c df inLit pos ring
          ((((lzWalk c data (cells c data) fw pos inLit).map
            (serBlk c)).flatten).dropLast) =
          ((data.drop pos).take q, some e) := by
  obtain ⟨hb16, hmm1, hmm2, hll1, hll2, hex, hrel⟩ := hv
  intro fw
  induction fw with
  | zero =>
    intro pos inLit ring df hpos hfw hcoh hfuel
    exfalso
    omega
  | succ fw ih =>
    intro pos inLit ring df hpos hfw hcoh hfuel
    have hcell := cellAt_inv c data ⟨hb16, hmm1, hmm2, hll1, hll2, hex, hrel⟩
      hcap (data.length - pos) (by omega)
    rw [(by omega : data.length - (data.length - pos) = pos)] at hcell
    rw [← cells_getD c data pos (by omega)] at hcell
    obtain ⟨hc1, hc2, hc3, hc4, hc5, hc6⟩ := hcell
    rw [lzWalk, if_pos hpos] at hfuel ⊢
    by_cases hbr : ((cells c data).getD pos sentSt).lbits +
        (if inLit then zmc c else 0) ≤ ((cells c data).getD pos sentSt).mbits
    · -- literal branch
      rw [if_pos hbr] at hfuel ⊢
      set cur := (cells c data).getD pos sentSt with hcur
      have hlen1 : 1 ≤ min cur.llen c.maxLlen := by
        have := hc3 hpos
        omega
      have hmax : max (min cur.llen c.maxLlen) 1 = min cur.llen c.maxLlen :=
        Nat.max_eq_left hlen1
      set len := min cur.llen c.maxLlen with hlendef
      have hpl : pos + len ≤ data.length := by omega
      have hlenM : len ≤ c.maxLlen := by omega
      simp only [hmax] at hfuel ⊢
      have hvv : c.Valid := ⟨hb16, hmm1, hmm2, hll1, hll2, hex, hrel⟩
      have hser : serBlk c (Blk.lit len ((data.drop pos).take len)) =
          lenHdr c.maxLlen len ++ (data.drop pos).take len := by
        rw [serBlk, slice_map_mod data hb pos len]
      have hd1 := lenHdr_len c.maxLlen len
      have hslen : ((data.drop pos).take len).length = len :=
        slice_length data pos len hpl
      by_cases hlast : data.length ≤ pos + len
      · -- this literal block is the last one: truncation hits its bytes
        have hW : lzWalk c data (cells c data) fw (pos + len) true = [] :=
          lzWalk_nil c data _ fw (pos + len) true (by omega)
        cases inLit with
        | false =>
          simp only [Bool.false_eq_true, if_false, List.nil_append,
            List.map_cons, List.flatten_cons, hW, List.map_nil,
            List.flatten_nil, List.append_nil, hser] at hfuel ⊢
          rw [List.dropLast_append_of_ne_nil _
            (List.ne_nil_of_length_pos (by omega))] at hfuel ⊢
          obtain ⟨f1, rfl⟩ : ∃ f1, df = f1 + 1 := ⟨df - 1, by omega⟩
          refine ⟨len - 1, DErr.shortLit, ?_⟩
          rw [dec_lit_short c hll2 len _ pos ring f1 hlenM
            (by rw [List.length_dropLast, hslen]; omega)]
          rw [dropLast_slice data pos len hpl]
        | true =>
          simp only [if_true, List.singleton_append, List.map_cons,
            List.flatten_cons, hW, List.map_nil, List.flatten_nil,
            List.append_nil, hser] at hfuel ⊢
          have hne2 : lenHdr c.maxLlen len ++ (data.drop pos).take len ≠ [] := by
            intro hnil
            have h := congrArg List.length hnil
            rw [List.length_append, hslen, List.length_nil] at h
            omega
          rw [List.dropLast_append_of_ne_nil _ hne2,
            List.dropLast_append_of_ne_nil _
              (List.ne_nil_of_length_pos (by omega))] at hfuel ⊢
          have hm0 := serBlk_len_pos c (Blk.mat 0 0)
          simp only [List.length_append] at hfuel
          obtain ⟨f3, rfl⟩ : ∃ f3, df = f3 + 1 + 1 := ⟨df - 2, by omega⟩
          rw [dec_mat0_step c hvv pos ring _ (f3 + 1)]
          refine ⟨len - 1, DErr.shortLit, ?_⟩
          rw [dec_lit_short c hll2 len _ pos ring f3 hlenM
            (by rw [List.length_dropLast, hslen]; omega)]
          rw [dropLast_slice data pos len hpl]
      · -- more blocks follow: the truncation stays in the rest
        have hWpos := walk_flatten_pos c data (cells c data) fw (pos + len)
          true (by omega) (by omega)
        have hB : (((lzWalk c data (cells c data) fw (pos + len) true).map
            (serBlk c)).flatten) ≠ [] :=
          List.ne_nil_of_length_pos (by omega)
        cases inLit with
        | false =>
          simp only [Bool.false_eq_true, if_false, List.nil_append,
            List.map_cons, List.flatten_cons, hser, List.append_assoc]
            at hfuel ⊢
          have hA : (data.drop pos).take len ++
              (((lzWalk c data (cells c data) fw (pos + len) true).map
                (serBlk c)).flatten) ≠ [] := by
            intro hnil
            have h := congrArg List.length hnil
            rw [List.length_append, List.length_nil] at h
            omega
          rw [List.dropLast_append_of_ne_nil _ hA,
            List.dropLast_append_of_ne_nil _ hB] at hfuel ⊢
          obtain ⟨f1, rfl⟩ : ∃ f1, df = f1 + 1 := ⟨df - 1, by omega⟩
          obtain ⟨ring2, hrun, hcoh2⟩ := dec_lit_step c hvv data pos len ring
            ((((lzWalk c data (cells c data) fw (pos + len) true).map
              (serBlk c)).flatten).dropLast) f1 hcoh hlen1 hlenM hpl
          simp only [List.length_append] at hfuel
          obtain ⟨q, e, hrec⟩ := ih (pos + len) true ring2 f1 (by omega)
            (by omega) hcoh2 (by omega)
          refine ⟨len + q, e, ?_⟩
          rw [hrun]
          simp only [hrec]
          rw [take_add_slice]
        | true =>
          simp only [if_true, List.singleton_append, List.map_cons,
            List.flatten_cons, hser, List.append_assoc] at hfuel ⊢
          have hA : lenHdr c.maxLlen len ++ ((data.drop pos).take len ++
              (((lzWalk c data (cells c data) fw (pos + len) true).map
                (serBlk c)).flatten)) ≠ [] := by
            intro hnil
            have h := congrArg List.length hnil
            rw [List.length_append, List.length_nil] at h
            omega
          have hA2 : (data.drop pos).take len ++
              (((lzWalk c data (cells c data) fw (pos + len) true).map
                (serBlk c)).flatten) ≠ [] := by
            intro hnil
            have h := congrArg List.length hnil
            rw [List.length_append, List.length_nil] at h
            omega
          rw [List.dropLast_append_of_ne_nil _ hA,
            List.dropLast_append_of_ne_nil _ hA2,
            List.dropLast_append_of_ne_nil _ hB] at hfuel ⊢
          have hm0 := serBlk_len_pos c (Blk.mat 0 0)
          simp only [List.length_append] at hfuel
          obtain ⟨f3, rfl⟩ : ∃ f3, df = f3 + 1 + 1 := ⟨df - 2, by omega⟩
          rw [dec_mat0_step c hvv pos ring _ (f3 + 1)]
          obtain ⟨ring2, hrun, hcoh2⟩ := dec_lit_step c hvv data pos len ring
            ((((lzWalk c data (cells c data) fw (pos + len) true).map
              (serBlk c)).flatten).dropLast) f3 hcoh hlen1 hlenM hpl
          obtain ⟨q, e, hrec⟩ := ih (pos + len) true ring2 f3 (by omega)
            (by omega) hcoh2 (by omega)
          refine ⟨len + q, e, ?_⟩
          rw [hrun]
          simp only [hrec]
          rw [take_add_slice]
    · -- match branch
      rw [if_neg hbr] at hfuel ⊢
      set cur := (cells c data).getD pos sentSt with hcur
      have hvv : c.Valid := ⟨hb16, hmm1, hmm2, hll1, hll2, hex, hrel⟩
      have h5 : (if inLit = true then zmc c else 0) ≤ (24 : Int) := by
        cases inLit
        · simp only [Bool.false_eq_true, if_false]
          norm_num
        · simpa using zmc_ub c
      have hfin : cur.mbits < INFC := by
        have h1 := not_le.mp hbr
        have h4 : ((data.length - pos : Nat) : Int) ≤ 131072 := by
          have h6 : data.length - pos ≤ 131072 := by omega
          exact_mod_cast h6
        have hI : INFC = 8388607 := rfl
        rw [hI]
        omega
      obtain ⟨hm1, hm2, hm3, hm4, hm5, hm6, hm7⟩ := hc6 hfin
      have hmaxm : cur.mlen ⊔ 1 = cur.mlen := Nat.max_eq_left hm1
      simp only [hmaxm] at hfuel ⊢
      have hsm2 : 2 ≤ (serBlk c (Blk.mat cur.mlen (encOff c pos cur.mpos))).length := by
        have hd1m := lenHdr_len c.maxMlen cur.mlen
        rw [serBlk, if_pos (Or.inl (by omega : cur.mlen ≠ 0)),
          if_pos (by omega : c.bitsMoff ≠ 0)]
        simp only [List.length_append, List.length_singleton, List.length_cons]
        omega
      by_cases hlast : data.length ≤ pos + cur.mlen
      · -- this match block is the last one: truncation hits its offset
        have hW : lzWalk c data (cells c data) fw (pos + cur.mlen) false = [] :=
          lzWalk_nil c data _ fw (pos + cur.mlen) false (by omega)
        cases inLit with
        | false =>
          simp only [Bool.false_eq_true, if_false, List.singleton_append,
            List.map_cons, List.flatten_cons, hW, List.map_nil,
            List.flatten_nil, List.append_nil] at hfuel ⊢
          have hne2 : serBlk c (Blk.mat cur.mlen (encOff c pos cur.mpos)) ≠ [] :=
            List.ne_nil_of_length_pos (by omega)
          rw [List.dropLast_append_of_ne_nil _ hne2] at hfuel ⊢
          have hsl := serBlk_len_pos c (Blk.lit 0 [])
          have hdlen := List.length_dropLast
            (serBlk c (Blk.mat cur.mlen (encOff c pos cur.mpos)))
          simp only [List.length_append] at hfuel
          obtain ⟨f3, rfl⟩ : ∃ f3, df = f3 + 1 + 1 := ⟨df - 2, by omega⟩
          rw [dec_lit0_step c pos ring _ (f3 + 1)]
          refine ⟨0, DErr.shortOff, ?_⟩
          rw [dec_mat_short c hbm hmm2 cur.mlen (encOff c pos cur.mpos)
            pos ring f3 hm1 hm3]
          rfl
        | true =>
          simp only [if_true, List.nil_append, List.map_cons,
            List.flatten_cons, hW, List.map_nil, List.flatten_nil,
            List.append_nil] at hfuel ⊢
          obtain ⟨f1, rfl⟩ : ∃ f1, df = f1 + 1 := ⟨df - 1, by omega⟩
          refine ⟨0, DErr.shortOff, ?_⟩
          rw [dec_mat_short c hbm hmm2 cur.mlen (encOff c pos cur.mpos)
            pos ring f1 hm1 hm3]
          rfl
      · -- more blocks follow: the truncation stays in the rest
        have hWpos := walk_flatten_pos c data (cells c data) fw (pos + cur.mlen)
          false (by omega) (by omega)
        have hB : (((lzWalk c data (cells c data) fw (pos + cur.mlen) false).map
            (serBlk c)).flatten) ≠ [] :=
          List.ne_nil_of_length_pos (by omega)
        cases inLit with
        | false =>
          simp only [Bool.false_eq_true, if_false, List.singleton_append,
            List.map_cons, List.flatten_cons, List.append_assoc] at hfuel ⊢
          have hA : serBlk c (Blk.mat cur.mlen (encOff c pos cur.mpos)) ++
              (((lzWalk c data (cells c data) fw (pos + cur.mlen) false).map
                (serBlk c)).flatten) ≠ [] := by
            intro hnil
            have h := congrArg List.length hnil
            rw [List.length_append, List.length_nil] at h
            omega
          rw [List.dropLast_append_of_ne_nil _ hA,
            List.dropLast_append_of_ne_nil _ hB] at hfuel ⊢
          have hsl := serBlk_len_pos c (Blk.lit 0 [])
          simp only [List.length_append] at hfuel
          obtain ⟨f3, rfl⟩ : ∃ f3, df = f3 + 1 + 1 := ⟨df - 2, by omega⟩
          rw [dec_lit0_step c pos ring _ (f3 + 1)]
          obtain ⟨ring2, hrun, hcoh2⟩ := dec_mat_step c hvv data pos cur.mlen
            cur.mpos ring
            ((((lzWalk c data (cells c data) fw (pos + cur.mlen) false).map
              (serBlk c)).flatten).dropLast) f3 hcoh hm1 hm3 hm2 hm4 hm5 hm6 hm7
          obtain ⟨q, e, hrec⟩ := ih (pos + cur.mlen) false ring2 f3 (by omega)
            (by omega) hcoh2 (by omega)
          refine ⟨cur.mlen + q, e, ?_⟩
          rw [hrun]
          simp only [hrec]
          rw [take_add_slice]
        | true =>
          simp only [if_true, List.nil_append, List.map_cons,
            List.flatten_cons, List.append_assoc] at hfuel ⊢
          rw [List.dropLast_append_of_ne_nil _ hB] at hfuel ⊢
          simp only [List.length_append] at hfuel
          obtain ⟨f1, rfl⟩ : ∃ f1, df = f1 + 1 := ⟨df - 1, by omega⟩
          obtain ⟨ring2, hrun, hcoh2⟩ := dec_mat_step c hvv data pos cur.mlen
            cur.mpos ring
            ((((lzWalk c data (cells c data) fw (pos + cur.mlen) false).map
              (serBlk c)).flatten).dropLast) f1 hcoh hm1 hm3 hm2 hm4 hm5 hm6 hm7
          obtain ⟨q, e, hrec⟩ := ih (pos + cur.mlen) false ring2 f1 (by omega)
            (by omega) hcoh2 (by omega)
          refine ⟨cur.mlen + q, e, ?_⟩
          rw [hrun]
          simp only [hrec]
          rw [take_add_slice]

/-- Claim C5 amended: for every valid configuration with bits_moff ≥ 1
(so every match block carries offset bytes) and every byte-valued input
within the cap whose encoding is non-empty, removing the last byte of the
encoding makes the decoder report one of the two "short file" errors and
return a prefix of the input.  (With bits_moff = 0 a stream ending in a
match block loses its length field instead and the decoder can terminate
cleanly: see the counterexample.) -/
theorem c5_truncation_amended (c : Cfg) (hv : c.Valid) (hbm : 1 ≤ c.bitsMoff)
    (data : List Nat) (hcap : data.length ≤ 131072)
    (hb : ∀ b ∈ data, b < 256) (hE : lzEncode c data ≠ []) :
    ∃ (q : Nat) (e : DErr),
      decodeRun c ((lzEncode c data).dropLast) = (data.take q, some e) := by
  have hpos : 0 < data.length := by
    rcases data with _ | ⟨x, xs⟩
    · exact absurd rfl hE
    · simp
  obtain ⟨q, e, hrun⟩ := walk_trunc c data hv hbm hcap hb data.length 0 false
    (fun _ => 0) (((lzEncode c data).dropLast).length + 1) hpos (by omega)
    (fun j hj _ => absurd hj (Nat.not_lt_zero j))
    (by rw [lzEncode]; exact Nat.lt_succ_self _)
  refine ⟨q, e, ?_⟩
  rw [decodeRun]
  rw [List.drop_zero] at hrun
  exact hrun

/-- Witness for c5_truncation_amended at the default configuration and
the one-byte input "A" (encoding 01 41; truncated to 01, the decoder
reports the short-literal error and emits the empty prefix). -/
theorem c5_truncation_amended_witness :
    dfltCfg.Valid ∧ 1 ≤ dfltCfg.bitsMoff ∧
    ([65] : List Nat).length ≤ 131072 ∧ (∀ b ∈ ([65] : List Nat), b < 256) ∧
    lzEncode dfltCfg [65] ≠ [] ∧
    ∃ (q : Nat) (e : DErr),
      decodeRun dfltCfg ((lzEncode dfltCfg [65]).dropLast) =
        (([65] : List Nat).take q, some e) :=
  ⟨by decide, by decide, by decide, by decide, by decide,
   c5_truncation_amended dfltCfg (by decide) (by decide) [65] (by decide)
     (by decide) (by decide)⟩

/-- Witness for c6_oversized_amended at the default configuration and a
three-byte input. -/
theorem c6_oversized_amended_witness :
    dfltCfg.Valid ∧ (∀ b ∈ ([65, 65, 65] : List Nat), b < 256) ∧
    decodeRun dfltCfg (lzEncodeMain dfltCfg [65, 65, 65]) =
      (([65, 65, 65] : List Nat).take 131072, none) :=
  ⟨by decide, by decide,
   c6_oversized_amended dfltCfg (by decide) [65, 65, 65] (by decide)⟩

/-! ## Decoder limit-irrelevance (C10) -/

theorem getLen_irrel (m m' : Nat) (hm : m ≤ 255) (hm' : m' ≤ 255)
    (inp : List Nat) : getLen m inp = getLen m' inp := by
  cases inp with
  | nil => rfl
  | cons ch rest =>
    rw [getLen.eq_def, getLen.eq_def]
    simp only []
    rw [if_pos (Or.inl (by omega : m < 256)),
      if_pos (Or.inl (by omega : m' < 256))]

theorem readOff_irrel (c c2 : Cfg) (hbm : c2.bitsMoff = c.bitsMoff)
    (inp : List Nat) : readOff c2 inp = readOff c inp := by
  rw [readOff.eq_def, readOff.eq_def, hbm]

theorem srcOf_irrel (c c2 : Cfg) (hbm : c2.bitsMoff = c.bitsMoff)
    (hor : c2.offsetRel = c.offsetRel) (pos off : Nat) :
    srcOf c2 pos off = srcOf c pos off := by
  have hdm : dmask c2 = dmask c := by rw [dmask, dmask, hbm]
  rw [srcOf.eq_def, srcOf.eq_def, hor, hdm]

/-- The decode loop never consults the configured length limits except to
pick the sub-256 length encoding: any two configurations agreeing on
everything but the (≤ 255) limits decode identically. -/
theorem decLoop_max_irrel (c c2 : Cfg)
    (hbm : c2.bitsMoff = c.bitsMoff) (hzo : c2.zeroOffset = c.zeroOffset)
    (hex : c2.exorOffset = c.exorOffset) (hor : c2.offsetRel = c.offsetRel)
    (hl : c.maxLlen ≤ 255) (hl2 : c2.maxLlen ≤ 255)
    (hm : c.maxMlen ≤ 255) (hm2 : c2.maxMlen ≤ 255) :
    ∀ (f : Nat) (ph : Bool) (pos : Nat) (ring : Nat → Nat) (inp : List Nat),
      decLoop c2 f ph pos ring inp = decLoop c f ph pos ring inp := by
  have hdm : dmask c2 = dmask c := by rw [dmask, dmask, hbm]
  intro f
  induction f with
  | zero =>
    intro ph pos ring inp
    rfl
  | succ f ih =>
    intro ph pos ring inp
    cases ph with
    | false =>
      have h1 : decLoop c2 (f + 1) false pos ring inp =
          (match getLen c2.maxLlen inp with
           | none => (([] : List Nat), (none : Option DErr))
           | some (n, rest) =>
             match copyLits (dmask c2) n pos ring rest with
             | (o, none) => (o, some DErr.shortLit)
             | (o, some (pos2, ring2, rest2)) =>
               (o ++ (decLoop c2 f true pos2 ring2 rest2).1,
                (decLoop c2 f true pos2 ring2 rest2).2)) := rfl
      have h2 : decLoop c (f + 1) false pos ring inp =
          (match getLen c.maxLlen inp with
           | none => (([] : List Nat), (none : Option DErr))
           | some (n, rest) =>
             match copyLits (dmask c) n pos ring rest with
             | (o, none) => (o, some DErr.shortLit)
             | (o, some (pos2, ring2, rest2)) =>
               (o ++ (decLoop c f true pos2 ring2 rest2).1,
                (decLoop c f true pos2 ring2 rest2).2)) := rfl
      rw [h1, h2, getLen_irrel c2.maxLlen c.maxLlen hl2 hl inp, hdm]
      simp only [ih]
    | true =>
      have h1 : decLoop c2 (f + 1) true pos ring inp =
          (match getLen c2.maxMlen inp with
           | none => (([] : List Nat), (none : Option DErr))
           | some (n, rst) =>
             if c2.zeroOffset ∨ n ≠ 0 then
               match readOff c2 rst with
               | none => ([], some DErr.shortOff)
               | some (off0, rest2) =>
                 ((copyMatch (dmask c2) n pos
                    (srcOf c2 pos (if c2.exorOffset then Nat.xor (dmask c2) off0 else off0))
                    ring).1 ++
                  (decLoop c2 f false
                    (copyMatch (dmask c2) n pos
                      (srcOf c2 pos (if c2.exorOffset then Nat.xor (dmask c2) off0 else off0))
                      ring).2.1
                    (copyMatch (dmask c2) n pos
                      (srcOf c2 pos (if c2.exorOffset then Nat.xor (dmask c2) off0 else off0))
                      ring).2.2 rest2).1,
                  (decLoop c2 f false
                    (copyMatch (dmask c2) n pos
                      (srcOf c2 pos (if c2.exorOffset then Nat.xor (dmask c2) off0 else off0))
                      ring).2.1
                    (copyMatch (dmask c2) n pos
                      (srcOf c2 pos (if c2.exorOffset then Nat.xor (dmask c2) off0 else off0))
                      ring).2.2 rest2).2)
             else decLoop c2 f false pos ring rst) := rfl
      have h2 : decLoop c (f + 1) true pos ring inp =
          (match getLen c.maxMlen inp with
           | none => (([] : List Nat), (none : Option DErr))
           | some (n, rst) =>
             if c.zeroOffset ∨ n ≠ 0 then
               match readOff c rst with
               | none => ([], some DErr.shortOff)
               | some (off0, rest2) =>
                 ((copyMatch (dmask c) n pos
                    (srcOf c pos (if c.exorOffset then Nat.xor (dmask c) off0 else off0))
                    ring).1 ++
                  (decLoop c f false
                    (copyMatch (dmask c) n pos
                      (srcOf c pos (if c.exorOffset then Nat.xor (dmask c) off0 else off0))
                      ring).2.1
                    (copyMatch (dmask c) n pos
                      (srcOf c pos (if c.exorOffset then Nat.xor (dmask c) off0 else off0))
                      ring).2.2 rest2).1,
                  (decLoop c f false
                    (copyMatch (dmask c) n pos
                      (srcOf c pos (if c.exorOffset then Nat.xor (dmask c) off0 else off0))
                      ring).2.1
                    (copyMatch (dmask c) n pos
                      (srcOf c pos (if c.exorOffset then Nat.xor (dmask c) off0 else off0))
                      ring).2.2 rest2).2)
             else decLoop c f false pos ring rst) := rfl
      rw [h1, h2, getLen_irrel c2.maxMlen c.maxMlen hm2 hm inp, hdm, hzo, hex]
      simp only [readOff_irrel c c2 hbm, srcOf_irrel c c2 hbm hor, ih]

/-- Claim C10: the decoder performs no range validation on decoded
fields.  (i) Decoding is unchanged when the configured maximum literal
and match lengths are replaced by any other limits ≤ 255: decoded length
values are never compared against the configured maxima (the limits only
select the one- or two-byte length encoding, identical below 256).
(ii) A stream whose length fields exceed the configured maxima (literal
length 5 and match length 7 against maxima of 2) and whose offset points
the match at ring cells never yet written is decoded to completion and
acted upon as-is, with no error: the only error reports decode can
produce are its end-of-file checks. -/
theorem c10_no_range_validation :
    (∀ (c : Cfg) (m m2 : Nat), c.maxLlen ≤ 255 → c.maxMlen ≤ 255 →
      m ≤ 255 → m2 ≤ 255 →
      ∀ (inp : List Nat),
        decodeRun { c with maxLlen := m, maxMlen := m2 } inp =
          decodeRun c inp) ∧
    decodeRun { dfltCfg with maxLlen := 2, maxMlen := 2 }
        [5, 1, 2, 3, 4, 5, 7, 0] =
      ([1, 2, 3, 4, 5, 5, 5, 5, 5, 5, 5, 5], none) := by
  constructor
  · intro c m m2 hcl hcm hm hm2 inp
    rw [decodeRun, decodeRun]
    exact decLoop_max_irrel c { c with maxLlen := m, maxMlen := m2 }
      rfl rfl rfl rfl hcl hm hcm hm2 (inp.length + 1) false 0 (fun _ => 0) inp
  · decide

/-- Witness for the universally quantified half of
c10_no_range_validation, at the default configuration with limits 2 and
3 on a three-byte stream. -/
theorem c10_no_range_validation_witness :
    dfltCfg.maxLlen ≤ 255 ∧ dfltCfg.maxMlen ≤ 255 ∧
    (2 : Nat) ≤ 255 ∧ (3 : Nat) ≤ 255 ∧
    decodeRun { dfltCfg with maxLlen := 2, maxMlen := 3 } [2, 9, 9] =
      decodeRun dfltCfg [2, 9, 9] :=
  ⟨by decide, by decide, by decide, by decide,
   c10_no_range_validation.1 dfltCfg 2 3 (by decide) (by decide) (by decide)
     (by decide) [2, 9, 9]⟩

end LZ8S
